import Mathlib

/-!
Verification of the red-black-tree ordered map in
`src/c/ordered_map/src/ordered_map.c` against its specification.

Embedding conventions.
* Keys and values use the integer policy of the concrete scenarios
  (`key_size = value_size = sizeof(int)`, numeric comparator): both are `Int`.
* `rb_node_t*` trees become the inductive `Tree`; the `NIL` sentinel is the
  `nil` constructor.
* The `parent` pointer of `rb_node_t` is represented by an explicit path
  (zipper): a list of `Step`s recording, for each ancestor from the focused
  node up to the root, whether the focus lies in its left or right subtree,
  together with the ancestor's own fields and its other subtree.  `plug`
  rebuilds the full tree from a focus and its path.  Loops of the C code that
  climb parent pointers become recursion over this path.
* `malloc` for the inline int payloads is modelled as succeeding; the
  allocation-failure behaviour of the duplicate-insert branch is modelled
  separately and faithfully by `insert_update_existing` below.
* The statistics block (`map->stats`) and timing code are not modelled: they
  are observationally irrelevant to every claim treated here.
-/

set_option maxHeartbeats 1000000

namespace OrderedMapC

/-- Node colors (`rb_color_t`, ordered_map.c lines 9-12). -/
inductive rb_color_t where
  | RB_RED
  | RB_BLACK
deriving DecidableEq

/-- Red-black tree (`rb_node_t`, lines 15-22) over the integer key/value
policy.  `nil` is the `NIL` sentinel (line 42). -/
inductive Tree where
  | nil
  | node (color : rb_color_t) (left : Tree) (key : Int) (value : Int) (right : Tree)
deriving DecidableEq

/-- One step of the parent chain of a focused node: the parent's color, key and
value, plus the sibling subtree on the other side.  `leftOf` means the focus is
the parent's left child. -/
inductive Step where
  | leftOf (c : rb_color_t) (k : Int) (v : Int) (r : Tree)
  | rightOf (c : rb_color_t) (k : Int) (v : Int) (l : Tree)
deriving DecidableEq

/-- Rebuild the whole tree from a focused subtree and its parent chain. -/
def plug : Tree → List Step → Tree
  | t, [] => t
  | t, .leftOf c k v r :: p => plug (.node c t k v r) p
  | t, .rightOf c k v l :: p => plug (.node c l k v t) p

/-- `get_color` (lines 122-125): `NIL` is black. -/
def get_color : Tree → rb_color_t
  | .nil => .RB_BLACK
  | .node c _ _ _ _ => c

/-- `set_color` (lines 127-132): no-op on `NIL`. -/
def set_color : Tree → rb_color_t → Tree
  | .nil, _ => .nil
  | .node _ l k v r, c => .node c l k v r

/-- `tree_search` (lines 337-351) with the integer comparator
(`compare(key, current->key)`: zero ↦ found, negative ↦ left, positive ↦
right).  Returns the found node (as a subtree) or `NIL`. -/
def tree_search : Tree → Int → Tree
  | .nil, _ => .nil
  | .node c l k v r, key =>
    if key = k then .node c l k v r
    else if key < k then tree_search l key
    else tree_search r key

/-- The same descent as `tree_search`, additionally recording the path to the
found node.  The C code keeps this information in the `parent` pointers of the
nodes traversed; the zipper makes it explicit for `ordered_map_remove`. -/
def search_zipper : Tree → Int → List Step → Option (Tree × List Step)
  | .nil, _, _ => none
  | .node c l k v r, key, p =>
    if key = k then some (.node c l k v r, p)
    else if key < k then search_zipper l key (.leftOf c k v r :: p)
    else search_zipper r key (.rightOf c k v l :: p)

/-- The in-place value overwrite of the duplicate branch of
`ordered_map_insert` (line 433, `memcpy(existing->value, value, value_size)`
for the inline-int policy): rewrite the value stored at the node that
`tree_search` reaches, leaving every other field of every node unchanged. -/
def update_value : Tree → Int → Int → Tree
  | .nil, _, _ => .nil
  | .node c l k v r, key, value =>
    if key = k then .node c l k value r
    else if key < k then .node c (update_value l key value) k v r
    else .node c l k v (update_value r key value)

/-- The descent loop of `ordered_map_insert` (lines 463-482): walk from the
root comparing `key_compare(new_node->key, x->key) < 0`, returning the parent
chain of the empty slot where the new node is attached.  (Ties descend right,
exactly as the `else` branch of line 468; the caller has already ruled out an
equal key via `tree_search`.) -/
def insert_descend : Tree → Int → List Step → List Step
  | .nil, _, p => p
  | .node c l k v r, key, p =>
    if key < k then insert_descend l key (.leftOf c k v r :: p)
    else insert_descend r key (.rightOf c k v l :: p)

/-- `set_color(z->parent, RB_BLACK)` in zipper form: rebuild the parent node
from its step with its color forced to black. -/
def reparent_black (z : Tree) : Step → Tree
  | .leftOf _ pk pv pr => .node .RB_BLACK z pk pv pr
  | .rightOf _ pk pv pl => .node .RB_BLACK pl pk pv z

/-- `insert_fixup` (lines 180-218).  The focus `z` is the current node of the
loop; the path is its parent chain.  Loop guard `get_color(z->parent) ==
RB_RED` reads the color stored in the head step.  Each branch performs one
loop iteration (recoloring, or the rotations of lines 191-197 / 207-213,
written out on the zipper) and recurses; every exit returns
`set_color(map->root, RB_BLACK)` (line 217) of the rebuilt tree.
The case of a red parent that is itself the root dereferences a null
grandparent in the C code (unreachable from valid states, since the root is
black whenever the loop is entered or resumed); it is modelled as a loop
exit.  `fuel` bounds the loop: each iteration shortens the parent chain, so
the C loop terminates within `p.length + 1` iterations and exhausted fuel
returns the same exit form, making any fuel at least that large faithful. -/
def insert_fixup : Nat → Tree → List Step → Tree
  | 0, z, p => set_color (plug z p) .RB_BLACK
  | _ + 1, z, [] => set_color z .RB_BLACK
  | fuel + 1, z, s1 :: rest =>
    if (match s1 with | .leftOf c _ _ _ => c | .rightOf c _ _ _ => c) = .RB_RED then
      match rest with
      | [] => set_color (plug z [s1]) .RB_BLACK
      | s2 :: rest2 =>
        match s2 with
        | .leftOf _ gk gv gr =>
          -- z->parent == z->parent->parent->left (line 183); uncle y = gr
          match get_color gr with
          | .RB_RED =>
            -- lines 185-189: recolor parent, uncle, grandparent; z = grandparent
            insert_fixup fuel (.node .RB_RED (reparent_black z s1) gk gv (set_color gr .RB_BLACK)) rest2
          | .RB_BLACK =>
            match s1 with
            | .rightOf pc pk pv pl =>
              -- lines 191-194: z == z->parent->right; z = z->parent; left_rotate(z);
              -- then lines 195-197: recolor and right_rotate(grandparent)
              match z with
              | .node _tc tl tk tv tr =>
                insert_fixup fuel (.node pc pl pk pv tl)
                  (.leftOf .RB_BLACK tk tv (.node .RB_RED tr gk gv gr) :: rest2)
              | .nil => set_color (plug z (s1 :: rest)) .RB_BLACK
            | .leftOf _ pk pv pr =>
              -- lines 195-197: recolor parent black, grandparent red, right_rotate(grandparent)
              insert_fixup fuel z (.leftOf .RB_BLACK pk pv (.node .RB_RED pr gk gv gr) :: rest2)
        | .rightOf _ gk gv gl =>
          -- mirror case (lines 199-214); uncle y = gl
          match get_color gl with
          | .RB_RED =>
            insert_fixup fuel (.node .RB_RED (set_color gl .RB_BLACK) gk gv (reparent_black z s1)) rest2
          | .RB_BLACK =>
            match s1 with
            | .leftOf pc pk pv pr =>
              -- lines 207-209: z == z->parent->left; z = z->parent; right_rotate(z)
              match z with
              | .node _tc tl tk tv tr =>
                insert_fixup fuel (.node pc tr pk pv pr)
                  (.rightOf .RB_BLACK tk tv (.node .RB_RED gl gk gv tl) :: rest2)
              | .nil => set_color (plug z (s1 :: rest)) .RB_BLACK
            | .rightOf _ pk pv pl =>
              -- lines 211-213: recolor and left_rotate(grandparent)
              insert_fixup fuel z (.rightOf .RB_BLACK pk pv (.node .RB_RED gl gk gv pl) :: rest2)
    else
      set_color (plug z (s1 :: rest)) .RB_BLACK

/-- `tree_minimum` (lines 221-226). -/
def tree_minimum : Tree → Tree
  | .nil => .nil
  | .node c l k v r => match l with
    | .nil => .node c l k v r
    | .node _ _ _ _ _ => tree_minimum l

/-- `tree_minimum` with the descent path recorded (the C code reaches the
minimum by following `left` pointers; its position is implicit in the parent
pointers and explicit here). -/
def tree_minimum_z : Tree → List Step → Tree × List Step
  | .nil, p => (.nil, p)
  | .node c l k v r, p => match l with
    | .nil => (.node c l k v r, p)
    | .node _ _ _ _ _ => tree_minimum_z l (.leftOf c k v r :: p)

/-- `tree_maximum` (lines 229-234). -/
def tree_maximum : Tree → Tree
  | .nil => .nil
  | .node c l k v r => match r with
    | .nil => .node c l k v r
    | .node _ _ _ _ _ => tree_maximum r

/-- `tree_maximum` with the descent path recorded. -/
def tree_maximum_z : Tree → List Step → Tree × List Step
  | .nil, p => (.nil, p)
  | .node c l k v r, p => match r with
    | .nil => (.node c l k v r, p)
    | .node _ _ _ _ _ => tree_maximum_z r (.rightOf c k v l :: p)

/-- The climbing loop of `tree_successor` (lines 242-247): ascend while the
current node is its parent's right child; return the first ancestor reached
from a left child, or `none` when the loop runs off the root (`y == NIL`). -/
def succ_climb : Tree → List Step → Option (Tree × List Step)
  | _, [] => none
  | t, .rightOf c k v l :: p => succ_climb (.node c l k v t) p
  | t, .leftOf c k v r :: p => some (.node c t k v r, p)

/-- `tree_successor` (lines 237-248) on a focused node. -/
def tree_successor : Tree → List Step → Option (Tree × List Step)
  | .nil, _ => none
  | .node c l k v r, p => match r with
    | .node _ _ _ _ _ => some (tree_minimum_z r (.rightOf c k v l :: p))
    | .nil => succ_climb (.node c l k v r) p

/-- The climbing loop of `tree_predecessor` (lines 256-261). -/
def pred_climb : Tree → List Step → Option (Tree × List Step)
  | _, [] => none
  | t, .leftOf c k v r :: p => pred_climb (.node c t k v r) p
  | t, .rightOf c k v l :: p => some (.node c l k v t, p)

/-- `tree_predecessor` (lines 251-262) on a focused node. -/
def tree_predecessor : Tree → List Step → Option (Tree × List Step)
  | .nil, _ => none
  | .node c l k v r, p => match l with
    | .node _ _ _ _ _ => some (tree_maximum_z l (.leftOf c k v r :: p))
    | .nil => pred_climb (.node c l k v r) p

/-- `delete_fixup` (lines 279-335).  `x` is the focused (possibly `NIL`)
child that replaced the spliced-out node, `p` its parent chain.  The loop
guard (line 281) `x != map->root && x != NIL && get_color(x) == RB_BLACK`
becomes: path nonempty, focus non-`NIL`, focus black.  On every exit the code
runs `if (x != NIL) set_color(x, RB_BLACK)` (lines 332-334), i.e. returns
`plug (set_color x RB_BLACK) p` (`set_color` is a no-op on `NIL`).
`fuel` bounds the loop; the C loop terminates within `p.length + 2`
iterations, and exhausted fuel returns the same exit form, so any fuel at
least that large is a faithful model.  A sibling `w` that is `NIL` at lines
290/314 would be a null dereference in C (unreachable from valid states);
it is modelled as a loop exit. -/
def delete_fixup : Nat → Tree → List Step → Tree
  | 0, x, p => plug (set_color x .RB_BLACK) p
  | _ + 1, x, [] => plug (set_color x .RB_BLACK) []
  | fuel + 1, x, s :: rest =>
    if x = .nil ∨ get_color x = .RB_RED then plug (set_color x .RB_BLACK) (s :: rest)
    else
      match s with
      | .leftOf pc pk pv w =>
        -- x == x->parent->left (line 282); sibling w = x->parent->right
        -- lines 284-289: if w red, recolor and left_rotate(x->parent); w = x->parent->right
        let s1 : rb_color_t × Tree × List Step :=
          match w with
          | .node .RB_RED wl wk wv wr => (.RB_RED, wl, .leftOf .RB_BLACK wk wv wr :: rest)
          | _ => (pc, w, rest)
        match s1 with
        | (pc2, w2, rest2) =>
          match w2 with
          | .nil => plug (set_color x .RB_BLACK) (.leftOf pc2 pk pv w2 :: rest2)
          | .node wc wl wk wv wr =>
            if get_color wl = .RB_BLACK ∧ get_color wr = .RB_BLACK then
              -- lines 290-292: set w red, x = x->parent
              delete_fixup fuel (.node pc2 x pk pv (.node .RB_RED wl wk wv wr)) rest2
            else
              -- lines 293-304
              let w3 : Tree :=
                if get_color wr = .RB_BLACK then
                  -- lines 294-298: w->left is red; recolor and right_rotate(w)
                  match wl with
                  | .node _ wll wlk wlv wlr =>
                    .node .RB_BLACK wll wlk wlv (.node .RB_RED wlr wk wv wr)
                  | .nil => .node wc wl wk wv wr
                else .node wc wl wk wv wr
              match w3 with
              | .nil => plug (set_color x .RB_BLACK) (.leftOf pc2 pk pv w3 :: rest2)
              | .node _ l3 k3 v3 r3 =>
                -- lines 300-304: w takes the parent's color, parent black,
                -- w->right black, left_rotate(x->parent), x = root (then
                -- the post-loop set_color blackens the root)
                set_color (plug (.node pc2 (.node .RB_BLACK x pk pv l3) k3 v3 (set_color r3 .RB_BLACK)) rest2) .RB_BLACK
      | .rightOf pc pk pv w =>
        -- mirror case (lines 306-329); sibling w = x->parent->left
        let s1 : rb_color_t × Tree × List Step :=
          match w with
          | .node .RB_RED wl wk wv wr => (.RB_RED, wr, .rightOf .RB_BLACK wk wv wl :: rest)
          | _ => (pc, w, rest)
        match s1 with
        | (pc2, w2, rest2) =>
          match w2 with
          | .nil => plug (set_color x .RB_BLACK) (.rightOf pc2 pk pv w2 :: rest2)
          | .node wc wl wk wv wr =>
            if get_color wr = .RB_BLACK ∧ get_color wl = .RB_BLACK then
              -- lines 314-316
              delete_fixup fuel (.node pc2 (.node .RB_RED wl wk wv wr) pk pv x) rest2
            else
              let w3 : Tree :=
                if get_color wl = .RB_BLACK then
                  -- lines 318-322: w->right is red; recolor and left_rotate(w)
                  match wr with
                  | .node _ wrl wrk wrv wrr =>
                    .node .RB_BLACK (.node .RB_RED wl wk wv wrl) wrk wrv wrr
                  | .nil => .node wc wl wk wv wr
                else .node wc wl wk wv wr
              match w3 with
              | .nil => plug (set_color x .RB_BLACK) (.rightOf pc2 pk pv w3 :: rest2)
              | .node _ l3 k3 v3 r3 =>
                -- lines 324-328
                set_color (plug (.node pc2 (set_color l3 .RB_BLACK) k3 v3 (.node .RB_BLACK r3 pk pv x)) rest2) .RB_BLACK

/-- `ordered_map_error_t` (ordered_map.h lines 50-58). -/
inductive ordered_map_error_t where
  | ORDERED_MAP_SUCCESS
  | ORDERED_MAP_ERROR_NULL_POINTER
  | ORDERED_MAP_ERROR_INVALID_CONFIG
  | ORDERED_MAP_ERROR_OUT_OF_MEMORY
  | ORDERED_MAP_ERROR_KEY_NOT_FOUND
  | ORDERED_MAP_ERROR_ITERATOR_INVALID
  | ORDERED_MAP_ERROR_ITERATOR_END
deriving DecidableEq

/-- `struct ordered_map` (lines 25-31) for the integer policy: root and size.
(The config is fixed by the policy; the stats block is not modelled.) -/
structure OrderedMap where
  root : Tree
  size : Nat
deriving DecidableEq

/-- `ordered_map_create` (lines 392-409) with the valid integer config and a
successful allocation: empty root, size 0. -/
def ordered_map_create : OrderedMap := { root := .nil, size := 0 }

/-- Body of `ordered_map_insert` (lines 418-501) for a non-null map and the
integer policy (key/value `memcpy` payloads, no destructors, allocations
succeed).  Lines 426-454: an existing key gets its value overwritten in
place.  Lines 457-500: otherwise a fresh red node is attached at the end of
the descent and `insert_fixup` runs; size increments. -/
def insert_body (m : OrderedMap) (key value : Int) : OrderedMap × ordered_map_error_t :=
  match tree_search m.root key with
  | .node _ _ _ _ _ =>
    ({ m with root := update_value m.root key value }, .ORDERED_MAP_SUCCESS)
  | .nil =>
    ({ root :=
         insert_fixup ((insert_descend m.root key []).length + 1)
           (.node .RB_RED .nil key value .nil) (insert_descend m.root key []),
       size := m.size + 1 }, .ORDERED_MAP_SUCCESS)

/-- `ordered_map_insert` including the null-handle check of line 419.  (The
key/value pointers of the integer policy are addresses of caller ints and are
modelled as non-null.) -/
def ordered_map_insert (h : Option OrderedMap) (key value : Int) :
    Option OrderedMap × ordered_map_error_t :=
  match h with
  | none => (none, .ORDERED_MAP_ERROR_NULL_POINTER)
  | some m => ((insert_body m key value).1, (insert_body m key value).2) |>.map some id

/-- Body of `ordered_map_remove` (lines 503-561) for a non-null map.
`search_zipper` locates `z` with its parent chain (the C code re-derives the
chain from parent pointers).  The three structural cases of lines 519-542
compute the replacement child `x` and its parent chain; the two-children case
splices the minimum `y` of the right subtree into `z`'s slot (the sub-cases
`y->parent == z` / deeper of lines 529-537 differ only in pointer
bookkeeping and are both captured by plugging `x` through the recorded
descent spine).  When the spliced-out node was black, `delete_fixup` runs
(lines 544-546); size decrements (line 549). -/
def remove_body (m : OrderedMap) (key : Int) : OrderedMap × ordered_map_error_t :=
  match search_zipper m.root key [] with
  | none => (m, .ORDERED_MAP_ERROR_KEY_NOT_FOUND)
  | some (.nil, _) => (m, .ORDERED_MAP_ERROR_KEY_NOT_FOUND)
  | some (.node zc zl _ _ zr, zp) =>
    let xinfo : rb_color_t × Tree × List Step :=
      match zl, zr with
      | .nil, _ => (zc, zr, zp)
      | .node _ _ _ _ _, .nil => (zc, zl, zp)
      | .node _ _ _ _ _, .node _ _ _ _ _ =>
        match tree_minimum_z zr [] with
        | (.node yc _ yk yv yr, spine) => (yc, yr, spine ++ .rightOf zc yk yv zl :: zp)
        | (.nil, _) => (zc, zr, zp)
    match xinfo with
    | (yc, x, xp) =>
      let root2 : Tree :=
        if yc = .RB_BLACK then delete_fixup (xp.length + 2) x xp else plug x xp
      ({ root := root2, size := m.size - 1 }, .ORDERED_MAP_SUCCESS)

/-- `ordered_map_remove` including the null-handle check of line 504. -/
def ordered_map_remove (h : Option OrderedMap) (key : Int) :
    Option OrderedMap × ordered_map_error_t :=
  match h with
  | none => (none, .ORDERED_MAP_ERROR_NULL_POINTER)
  | some m => ((remove_body m key).1, (remove_body m key).2) |>.map some id

/-- `ordered_map_get` (lines 563-579): null map gives `NULL` (`none`);
otherwise the found node's stored value, or `NULL` when absent. -/
def ordered_map_get (h : Option OrderedMap) (key : Int) : Option Int :=
  match h with
  | none => none
  | some m =>
    match tree_search m.root key with
    | .nil => none
    | .node _ _ _ v _ => some v

/-- `ordered_map_contains` (lines 581-596). -/
def ordered_map_contains (h : Option OrderedMap) (key : Int) : Bool :=
  match h with
  | none => false
  | some m =>
    match tree_search m.root key with
    | .nil => false
    | .node _ _ _ _ _ => true

/-- `ordered_map_empty` (lines 598-600): `!map || map->size == 0`. -/
def ordered_map_empty (h : Option OrderedMap) : Bool :=
  match h with
  | none => true
  | some m => m.size = 0

/-- `ordered_map_size` (lines 602-604): `map ? map->size : 0`. -/
def ordered_map_size (h : Option OrderedMap) : Nat :=
  match h with
  | none => 0
  | some m => m.size

/-- `ordered_map_get_or_default` (lines 606-609): the stored value pointer
when `ordered_map_get` found one, otherwise the caller-supplied default
pointer itself. -/
def ordered_map_get_or_default (h : Option OrderedMap) (key dflt : Int) : Int :=
  match ordered_map_get h key with
  | some v => v
  | none => dflt

/-- `ordered_map_replace` (lines 618-623): absent key (or null map, where
`ordered_map_contains` is false) returns `key-not-found` with no
modification; otherwise delegates to `ordered_map_insert`. -/
def ordered_map_replace (h : Option OrderedMap) (key value : Int) :
    Option OrderedMap × ordered_map_error_t :=
  if ordered_map_contains h key = false then (h, .ORDERED_MAP_ERROR_KEY_NOT_FOUND)
  else ordered_map_insert h key value

/-- `ordered_map_validate` (lines 804-810): false for a null map; for any
non-null map the source returns `true` unconditionally (the body is a
placeholder, per its own comment). -/
def ordered_map_validate (h : Option OrderedMap) : Bool :=
  match h with
  | none => false
  | some _ => true

/-! ### Observations and spec-side invariant checkers -/

/-- In-order binding sequence of a tree (the sequence a forward cursor is
specified to produce). -/
def inorder : Tree → List (Int × Int)
  | .nil => []
  | .node _ l k v r => inorder l ++ (k, v) :: inorder r

/-- In-order key sequence. -/
def keys (t : Tree) : List Int := (inorder t).map Prod.fst

/-- Spec §4.2 invariant 5, checked bottom-up: `some h` is the common black
count of all root-to-leaf paths (leaf sentinels counted black), `none` means
two paths disagree somewhere. -/
def black_height : Tree → Option Nat
  | .nil => some 1
  | .node c l _ _ r =>
    match black_height l, black_height r with
    | some a, some b =>
      if a = b then some (a + (if c = .RB_BLACK then 1 else 0)) else none
    | _, _ => none

/-- Spec §4.2 invariant 4: no red node has a red child. -/
def no_red_red : Tree → Bool
  | .nil => true
  | .node c l _ _ r =>
    (match c with
     | .RB_RED => get_color l = .RB_BLACK && get_color r = .RB_BLACK
     | .RB_BLACK => true)
    && no_red_red l && no_red_red r

/-- The five red-black invariants of spec §4.2 (invariants 1 and 3 are
representational: every node carries a color, `NIL` is black by
`get_color`): black root, no red-red edge, equal black counts. -/
def rb_invariants_hold (t : Tree) : Bool :=
  get_color t = .RB_BLACK && no_red_red t && (black_height t).isSome

/-- In-order key ordering invariant (spec §3 *In-order agreement* /
*Uniqueness*): the in-order key sequence is strictly increasing. -/
def SortedKeys (t : Tree) : Prop := (keys t).Pairwise (· < ·)

instance (t : Tree) : Decidable (SortedKeys t) := by
  unfold SortedKeys; infer_instance

/-! ### Value-ownership effects of the duplicate-insert branch

Claims C2 and C3 are about a map whose value policy is copy/destroy
(`value_size == 0`, `value_copy` and `value_destructor` set).  Only the
duplicate-key branch of `ordered_map_insert` (lines 425-454) is involved: it
touches nothing but the found node's `value` slot, so the model tracks the
stored value object plus the destructor / allocation effects.  Value objects
are identified by numbers; `value_copy` is an arbitrary function that either
produces a fresh object or fails (allocation failure). -/

/-- Which value objects are alive, and the sequence of
`value_destructor` invocations made so far. -/
structure ValueWorld where
  live : List Nat
  destroy_log : List Nat
deriving DecidableEq

/-- One `value_destructor(obj)` call: the object stops being live and the
call is logged. -/
def value_destructor_call (w : ValueWorld) (obj : Nat) : ValueWorld :=
  { live := w.live.erase obj, destroy_log := w.destroy_log ++ [obj] }

/-- The found node's `value` slot plus the ownership world. -/
structure DupState where
  stored : Nat
  world : ValueWorld
deriving DecidableEq

/-- The duplicate-key branch of `ordered_map_insert` (lines 427-454) for the
copy/destroy value policy, after `tree_search` found `existing`:
line 429-431 runs `value_destructor(existing->value)`;
`value_size == 0` and `value_copy` set, so line 435 runs
`new_value = value_copy(value)`; line 436 returns out-of-memory when the
copy fails; otherwise lines 437-439 run `value_destructor(existing->value)`
again and line 440 stores the copy. -/
def insert_update_existing (value_copy : Nat → Option Nat) (src : Nat) (s : DupState) :
    DupState × ordered_map_error_t :=
  let w1 := value_destructor_call s.world s.stored
  match value_copy src with
  | none => ({ s with world := w1 }, .ORDERED_MAP_ERROR_OUT_OF_MEMORY)
  | some nv =>
    let w2 : ValueWorld := { w1 with live := nv :: w1.live }
    let w3 := value_destructor_call w2 s.stored
    ({ stored := nv, world := w3 }, .ORDERED_MAP_SUCCESS)

/-! ### Sanity checks of the embedding on the concrete scenario of spec §8 -/

/-- Insert `k ↦ 10k`, keeping only the post-state (insert on a valid map and
key always succeeds in the integer policy). -/
def insert10 (m : OrderedMap) (k : Int) : OrderedMap := (insert_body m k (10 * k)).1

example : (insert10 ordered_map_create 1).root = .node .RB_BLACK .nil 1 10 .nil := by decide

example : (insert10 (insert10 (insert10 ordered_map_create 1) 2) 3).root
    = .node .RB_BLACK (.node .RB_RED .nil 1 10 .nil) 2 20 (.node .RB_RED .nil 3 30 .nil) := by
  decide

/-- The map after inserting 1, 2, 3, 4 (keys mapped to 10×key). -/
def c1_map4 : OrderedMap :=
  insert10 (insert10 (insert10 (insert10 ordered_map_create 1) 2) 3) 4

example : c1_map4.root
    = .node .RB_BLACK (.node .RB_BLACK .nil 1 10 .nil) 2 20
        (.node .RB_BLACK .nil 3 30 (.node .RB_RED .nil 4 40 .nil)) := by decide

/-- The map after additionally removing key 1. -/
def c1_map5 : OrderedMap := (remove_body c1_map4 1).1

example : c1_map5.root
    = .node .RB_BLACK .nil 2 20 (.node .RB_BLACK .nil 3 30 (.node .RB_RED .nil 4 40 .nil)) := by
  decide

/-! ### Context decomposition of plugged trees -/

/-- Bindings contributed to the left of a focused subtree by its parent
chain. -/
def ctx_before : List Step → List (Int × Int)
  | [] => []
  | .leftOf _ _ _ _ :: p => ctx_before p
  | .rightOf _ k v l :: p => ctx_before p ++ inorder l ++ [(k, v)]

/-- Bindings contributed to the right of a focused subtree by its parent
chain. -/
def ctx_after : List Step → List (Int × Int)
  | [] => []
  | .leftOf _ k v r :: p => (k, v) :: inorder r ++ ctx_after p
  | .rightOf _ _ _ _ :: p => ctx_after p

theorem inorder_plug : ∀ (p : List Step) (t : Tree),
    inorder (plug t p) = ctx_before p ++ inorder t ++ ctx_after p := by
  intro p
  induction p with
  | nil => intro t; simp [plug, ctx_before, ctx_after]
  | cons s p ih =>
    intro t
    cases s with
    | leftOf c k v r => simp [plug, ctx_before, ctx_after, ih, inorder]
    | rightOf c k v l => simp [plug, ctx_before, ctx_after, ih, inorder]

theorem plug_append : ∀ (p q : List Step) (t : Tree),
    plug t (p ++ q) = plug (plug t p) q := by
  intro p
  induction p with
  | nil => intro q t; rfl
  | cons s p ih => intro q t; cases s <;> simp [plug, ih]

theorem inorder_set_color (t : Tree) (c : rb_color_t) :
    inorder (set_color t c) = inorder t := by
  cases t <;> rfl

theorem keys_set_color (t : Tree) (c : rb_color_t) :
    keys (set_color t c) = keys t := by
  simp [keys, inorder_set_color]

/-! ### Association-list helpers for stating refinements -/

/-- Lookup in a binding list (first key match). -/
def lookupA (k : Int) : List (Int × Int) → Option Int
  | [] => none
  | (a, b) :: l => if a = k then some b else lookupA k l

/-- Sorted-position insertion into a binding list: the new binding goes
immediately before the first strictly larger key. -/
def listInsert (k v : Int) : List (Int × Int) → List (Int × Int)
  | [] => [(k, v)]
  | (a, b) :: l => if k < a then (k, v) :: (a, b) :: l else (a, b) :: listInsert k v l

/-- Remove the first binding with the given key from a binding list. -/
def eraseKey (k : Int) : List (Int × Int) → List (Int × Int)
  | [] => []
  | (a, b) :: l => if a = k then l else (a, b) :: eraseKey k l

/-- Replace the value of the first binding with the given key. -/
def listUpdate (k v : Int) : List (Int × Int) → List (Int × Int)
  | [] => []
  | (a, b) :: l => if a = k then (a, v) :: l else (a, b) :: listUpdate k v l

theorem lookupA_append_of_left_none {k : Int} {A : List (Int × Int)}
    (h : ∀ q ∈ A, q.1 ≠ k) (B : List (Int × Int)) :
    lookupA k (A ++ B) = lookupA k B := by
  induction A with
  | nil => rfl
  | cons q A ih =>
    obtain ⟨a, b⟩ := q
    have ha : a ≠ k := h (a, b) (List.mem_cons_self _ _)
    simp only [List.cons_append, lookupA, if_neg ha]
    exact ih fun q hq => h q (List.mem_cons_of_mem _ hq)

theorem lookupA_append_of_right_none {k : Int} {B : List (Int × Int)}
    (h : lookupA k B = none) (A : List (Int × Int)) :
    lookupA k (A ++ B) = lookupA k A := by
  induction A with
  | nil => simpa using h
  | cons q A ih =>
    obtain ⟨a, b⟩ := q
    by_cases ha : a = k <;> simp [lookupA, ha, ih]

theorem lookupA_eq_none_iff {k : Int} {l : List (Int × Int)} :
    lookupA k l = none ↔ ∀ q ∈ l, q.1 ≠ k := by
  induction l with
  | nil => simp [lookupA]
  | cons q l ih =>
    obtain ⟨a, b⟩ := q
    by_cases ha : a = k <;> simp [lookupA, ha, ih]

theorem lookupA_isSome_iff {k : Int} {l : List (Int × Int)} :
    (lookupA k l).isSome ↔ k ∈ l.map Prod.fst := by
  induction l with
  | nil => simp [lookupA]
  | cons q l ih =>
    obtain ⟨a, b⟩ := q
    by_cases ha : a = k
    · subst ha; simp [lookupA]
    · simp only [lookupA, if_neg ha, List.map_cons, List.mem_cons, ih]
      constructor
      · exact fun h => Or.inr h
      · rintro (h | h)
        · exact absurd h.symm ha
        · exact h

/-! ### Sortedness -/

theorem pairwise_middle {A B : List (Int × Int)} {k : Int} {v : Int}
    (h : ((A ++ (k, v) :: B).map Prod.fst).Pairwise (· < ·)) :
    (∀ q ∈ A, q.1 < k) ∧ (∀ q ∈ B, k < q.1) := by
  rw [List.map_append, List.map_cons, List.pairwise_append] at h
  obtain ⟨-, h2, h3⟩ := h
  constructor
  · intro q hq
    exact h3 q.1 (List.mem_map_of_mem Prod.fst hq) k (List.mem_cons_self _ _)
  · intro q hq
    exact (List.pairwise_cons.mp h2).1 q.1 (List.mem_map_of_mem Prod.fst hq)

theorem sortedKeys_node {c : rb_color_t} {l r : Tree} {a b : Int}
    (h : SortedKeys (.node c l a b r)) :
    SortedKeys l ∧ SortedKeys r ∧ (∀ q ∈ inorder l, q.1 < a) ∧
      (∀ q ∈ inorder r, a < q.1) := by
  have h' := h
  unfold SortedKeys keys inorder at h'
  have hb := pairwise_middle h'
  rw [List.map_append, List.map_cons, List.pairwise_append] at h'
  exact ⟨h'.1, (List.pairwise_cons.mp h'.2.1).2, hb.1, hb.2⟩

/-! ### The fixup procedures only rotate and recolor: in-order preserved -/

theorem inorder_insert_fixup : ∀ (fuel : Nat) (z : Tree) (p : List Step),
    inorder (insert_fixup fuel z p) = inorder (plug z p) := by
  intro fuel
  induction fuel with
  | zero => intro z p; simp [insert_fixup, inorder_set_color]
  | succ fuel ih =>
    intro z p
    match p with
    | [] => simp [insert_fixup, inorder_set_color, plug]
    | s1 :: rest =>
      cases s1 with
      | leftOf pc pk pv pr =>
        cases pc with
        | RB_BLACK => simp [insert_fixup, inorder_set_color]
        | RB_RED =>
          match rest with
          | [] => simp [insert_fixup, inorder_set_color]
          | s2 :: rest2 =>
            cases s2 with
            | leftOf gc gk gv gr =>
              cases hgr : get_color gr with
              | RB_RED =>
                simp only [insert_fixup, hgr, if_pos rfl, ih, reparent_black]
                simp [ih, inorder_plug, inorder, inorder_set_color, List.append_assoc, plug]
              | RB_BLACK =>
                simp only [insert_fixup, hgr, if_pos rfl, ih]
                simp [ih, inorder_plug, inorder, List.append_assoc, plug, ctx_after, ctx_before]
            | rightOf gc gk gv gl =>
              cases hgl : get_color gl with
              | RB_RED =>
                simp only [insert_fixup, hgl, if_pos rfl, ih, reparent_black]
                simp [ih, inorder_plug, inorder, inorder_set_color, List.append_assoc, plug]
              | RB_BLACK =>
                cases z with
                | nil =>
                  simp only [insert_fixup, hgl, if_pos rfl]
                  simp [inorder_set_color]
                | node tc tl tk tv tr =>
                  simp only [insert_fixup, hgl, if_pos rfl, ih]
                  simp [ih, inorder_plug, inorder, List.append_assoc, plug, ctx_after, ctx_before]
      | rightOf pc pk pv pl =>
        cases pc with
        | RB_BLACK => simp [insert_fixup, inorder_set_color]
        | RB_RED =>
          match rest with
          | [] => simp [insert_fixup, inorder_set_color]
          | s2 :: rest2 =>
            cases s2 with
            | leftOf gc gk gv gr =>
              cases hgr : get_color gr with
              | RB_RED =>
                simp only [insert_fixup, hgr, if_pos rfl, ih, reparent_black]
                simp [ih, inorder_plug, inorder, inorder_set_color, List.append_assoc, plug]
              | RB_BLACK =>
                cases z with
                | nil =>
                  simp only [insert_fixup, hgr, if_pos rfl]
                  simp [inorder_set_color]
                | node tc tl tk tv tr =>
                  simp only [insert_fixup, hgr, if_pos rfl, ih]
                  simp [ih, inorder_plug, inorder, List.append_assoc, plug, ctx_after, ctx_before]
            | rightOf gc gk gv gl =>
              cases hgl : get_color gl with
              | RB_RED =>
                simp only [insert_fixup, hgl, if_pos rfl, ih, reparent_black]
                simp [ih, inorder_plug, inorder, inorder_set_color, List.append_assoc, plug]
              | RB_BLACK =>
                simp only [insert_fixup, hgl, if_pos rfl, ih]
                simp [ih, inorder_plug, inorder, List.append_assoc, plug, ctx_after, ctx_before]

theorem inorder_delete_fixup : ∀ (fuel : Nat) (x : Tree) (p : List Step),
    inorder (delete_fixup fuel x p) = inorder (plug x p) := by
  intro fuel
  induction fuel with
  | zero => intro x p; simp [delete_fixup, inorder_plug, inorder_set_color]
  | succ fuel ih =>
    intro x p
    match p with
    | [] => simp [delete_fixup, inorder_plug, inorder_set_color]
    | .leftOf pc pk pv w :: rest =>
      by_cases hx : x = Tree.nil ∨ get_color x = rb_color_t.RB_RED
      · simp [delete_fixup, hx, inorder_plug, inorder_set_color]
      · cases w with
        | nil =>
          simp_all [delete_fixup, get_color, inorder_plug, inorder, inorder_set_color,
            ctx_before, ctx_after, List.append_assoc, plug]
        | node wc wl wk wv wr =>
          cases wc with
          | RB_RED =>
            cases wl with
            | nil =>
              simp_all [delete_fixup, get_color, inorder_plug, inorder, inorder_set_color,
                ctx_before, ctx_after, List.append_assoc, plug]
            | node c2 l2 k2 v2 r2 =>
              by_cases hbb : get_color l2 = rb_color_t.RB_BLACK ∧ get_color r2 = rb_color_t.RB_BLACK
              · simp_all [delete_fixup, inorder_plug, inorder, inorder_set_color,
                  ctx_before, ctx_after, List.append_assoc, plug]
              · by_cases hwr : get_color r2 = rb_color_t.RB_BLACK
                · cases l2 with
                  | nil =>
                    simp_all [delete_fixup, get_color, inorder_plug, inorder, inorder_set_color,
                      ctx_before, ctx_after, List.append_assoc, plug]
                  | node c3 l3 k3 v3 r3 =>
                    simp_all [delete_fixup, inorder_plug, inorder, inorder_set_color,
                      ctx_before, ctx_after, List.append_assoc, plug]
                · simp_all [delete_fixup, inorder_plug, inorder, inorder_set_color,
                    ctx_before, ctx_after, List.append_assoc, plug]
          | RB_BLACK =>
            by_cases hbb : get_color wl = rb_color_t.RB_BLACK ∧ get_color wr = rb_color_t.RB_BLACK
            · simp_all [delete_fixup, inorder_plug, inorder, inorder_set_color,
                ctx_before, ctx_after, List.append_assoc, plug]
            · by_cases hwr : get_color wr = rb_color_t.RB_BLACK
              · cases wl with
                | nil =>
                  simp_all [delete_fixup, get_color, inorder_plug, inorder, inorder_set_color,
                    ctx_before, ctx_after, List.append_assoc, plug]
                | node c3 l3 k3 v3 r3 =>
                  simp_all [delete_fixup, inorder_plug, inorder, inorder_set_color,
                    ctx_before, ctx_after, List.append_assoc, plug]
              · simp_all [delete_fixup, inorder_plug, inorder, inorder_set_color,
                  ctx_before, ctx_after, List.append_assoc, plug]
    | .rightOf pc pk pv w :: rest =>
      by_cases hx : x = Tree.nil ∨ get_color x = rb_color_t.RB_RED
      · simp [delete_fixup, hx, inorder_plug, inorder_set_color]
      · cases w with
        | nil =>
          simp_all [delete_fixup, get_color, inorder_plug, inorder, inorder_set_color,
            ctx_before, ctx_after, List.append_assoc, plug]
        | node wc wl wk wv wr =>
          cases wc with
          | RB_RED =>
            cases wr with
            | nil =>
              simp_all [delete_fixup, get_color, inorder_plug, inorder, inorder_set_color,
                ctx_before, ctx_after, List.append_assoc, plug]
            | node c2 l2 k2 v2 r2 =>
              by_cases hbb : get_color r2 = rb_color_t.RB_BLACK ∧ get_color l2 = rb_color_t.RB_BLACK
              · simp_all [delete_fixup, inorder_plug, inorder, inorder_set_color,
                  ctx_before, ctx_after, List.append_assoc, plug]
              · by_cases hwl : get_color l2 = rb_color_t.RB_BLACK
                · cases r2 with
                  | nil =>
                    simp_all [delete_fixup, get_color, inorder_plug, inorder, inorder_set_color,
                      ctx_before, ctx_after, List.append_assoc, plug]
                  | node c3 l3 k3 v3 r3 =>
                    simp_all [delete_fixup, inorder_plug, inorder, inorder_set_color,
                      ctx_before, ctx_after, List.append_assoc, plug]
                · simp_all [delete_fixup, inorder_plug, inorder, inorder_set_color,
                    ctx_before, ctx_after, List.append_assoc, plug]
          | RB_BLACK =>
            by_cases hbb : get_color wr = rb_color_t.RB_BLACK ∧ get_color wl = rb_color_t.RB_BLACK
            · simp_all [delete_fixup, inorder_plug, inorder, inorder_set_color,
                ctx_before, ctx_after, List.append_assoc, plug]
            · by_cases hwl : get_color wl = rb_color_t.RB_BLACK
              · cases wr with
                | nil =>
                  simp_all [delete_fixup, get_color, inorder_plug, inorder, inorder_set_color,
                    ctx_before, ctx_after, List.append_assoc, plug]
                | node c3 l3 k3 v3 r3 =>
                  simp_all [delete_fixup, inorder_plug, inorder, inorder_set_color,
                    ctx_before, ctx_after, List.append_assoc, plug]
              · simp_all [delete_fixup, inorder_plug, inorder, inorder_set_color,
                  ctx_before, ctx_after, List.append_assoc, plug]

/-! ### Correctness of `tree_search` on sorted trees -/

/-- The stored value of a found node (`node->value`), `none` for `NIL`. -/
def node_value : Tree → Option Int
  | .nil => none
  | .node _ _ _ v _ => some v

theorem tree_search_key : ∀ {t : Tree} {key : Int} {c : rb_color_t} {l r : Tree}
    {a v : Int}, tree_search t key = .node c l a v r → a = key := by
  intro t
  induction t with
  | nil => intro key c l r a v h; exact absurd h (by simp [tree_search])
  | node c0 l0 k0 v0 r0 ihl ihr =>
    intro key c l r a v h
    by_cases h1 : key = k0
    · rw [tree_search, if_pos h1] at h
      cases h
      exact h1.symm
    · by_cases h2 : key < k0
      · rw [tree_search, if_neg h1, if_pos h2] at h
        exact ihl h
      · rw [tree_search, if_neg h1, if_neg h2] at h
        exact ihr h

theorem node_value_tree_search {t : Tree} (hs : SortedKeys t) (key : Int) :
    node_value (tree_search t key) = lookupA key (inorder t) := by
  induction t with
  | nil => rfl
  | node c l a b r ihl ihr =>
    obtain ⟨hsl, hsr, hbl, hbr⟩ := sortedKeys_node hs
    by_cases h1 : key = a
    · rw [tree_search, if_pos h1]
      subst h1
      rw [inorder, lookupA_append_of_left_none (fun q hq => ne_of_lt (hbl q hq))]
      simp [lookupA, node_value]
    · by_cases h2 : key < a
      · rw [tree_search, if_neg h1, if_pos h2, inorder,
          lookupA_append_of_right_none ?_ (inorder l)]
        · exact ihl hsl
        · rw [lookupA_eq_none_iff]
          intro q hq
          rcases List.mem_cons.mp hq with hq | hq
          · rw [hq]; exact fun hc => h1 hc.symm
          · exact fun hc => absurd (hbr q hq) (by rw [hc]; exact not_lt_of_gt h2)
      · rw [tree_search, if_neg h1, if_neg h2, inorder,
          lookupA_append_of_left_none (fun q hq => ne_of_lt ?_)]
        · rw [lookupA, if_neg fun hc => h1 hc.symm]
          exact ihr hsr
        · exact lt_of_lt_of_le (hbl q hq) (le_of_not_lt h2)

theorem tree_search_eq_nil_iff {t : Tree} (hs : SortedKeys t) (key : Int) :
    tree_search t key = .nil ↔ lookupA key (inorder t) = none := by
  rw [← node_value_tree_search hs key]
  cases tree_search t key <;> simp [node_value]

theorem tree_search_ne_nil_iff {t : Tree} (hs : SortedKeys t) (key : Int) :
    tree_search t key ≠ .nil ↔ key ∈ keys t := by
  constructor
  · intro h
    rw [keys, ← lookupA_isSome_iff, Option.isSome_iff_ne_none]
    intro hn
    exact h ((tree_search_eq_nil_iff hs key).mpr hn)
  · intro h hn
    rw [tree_search_eq_nil_iff hs key] at hn
    rw [keys, ← lookupA_isSome_iff, hn] at h
    exact absurd h (by simp)

/-! ### List-level lemmas about the association-list operations -/

theorem keys_node (c : rb_color_t) (l : Tree) (a b : Int) (r : Tree) :
    keys (.node c l a b r) = keys l ++ a :: keys r := by
  simp [keys, inorder]

theorem listInsert_append_left {k a : Int} (v b : Int)
    (A B : List (Int × Int)) (h : k < a) :
    listInsert k v (A ++ (a, b) :: B) = listInsert k v A ++ (a, b) :: B := by
  induction A with
  | nil => simp [listInsert, h]
  | cons q A ih =>
    obtain ⟨x, y⟩ := q
    by_cases hx : k < x <;> simp [listInsert, hx, ih]

theorem listInsert_append_right {k : Int} (v : Int) {A : List (Int × Int)}
    (h : ∀ q ∈ A, ¬k < q.1) (B : List (Int × Int)) :
    listInsert k v (A ++ B) = A ++ listInsert k v B := by
  induction A with
  | nil => rfl
  | cons q A ih =>
    obtain ⟨x, y⟩ := q
    have hx : ¬k < x := h (x, y) (List.mem_cons_self _ _)
    simp only [List.cons_append, listInsert, if_neg hx, List.cons.injEq, true_and]
    exact ih fun q hq => h q (List.mem_cons_of_mem _ hq)

theorem self_mem_listInsert (k v : Int) (l : List (Int × Int)) :
    k ∈ (listInsert k v l).map Prod.fst := by
  induction l with
  | nil => simp [listInsert]
  | cons q l ih =>
    obtain ⟨a, b⟩ := q
    by_cases h : k < a <;> simp [listInsert, h, ih]

theorem mem_map_fst_listInsert {x k v : Int} {l : List (Int × Int)}
    (h : x ∈ (listInsert k v l).map Prod.fst) : x = k ∨ x ∈ l.map Prod.fst := by
  induction l with
  | nil => simpa [listInsert] using h
  | cons q l ih =>
    obtain ⟨a, b⟩ := q
    by_cases hk : k < a
    · rw [listInsert, if_pos hk] at h
      simp only [List.map_cons, List.mem_cons] at h ⊢
      tauto
    · rw [listInsert, if_neg hk] at h
      simp only [List.map_cons, List.mem_cons] at h ⊢
      rcases h with h | h
      · tauto
      · rcases ih h with h | h <;> tauto

theorem pairwise_listInsert {k : Int} (v : Int) {l : List (Int × Int)}
    (hs : (l.map Prod.fst).Pairwise (· < ·)) (hfresh : k ∉ l.map Prod.fst) :
    ((listInsert k v l).map Prod.fst).Pairwise (· < ·) := by
  induction l with
  | nil => simp [listInsert]
  | cons q l ih =>
    obtain ⟨a, b⟩ := q
    simp only [List.map_cons, List.pairwise_cons] at hs
    simp only [List.map_cons, List.mem_cons] at hfresh
    push_neg at hfresh
    by_cases hk : k < a
    · simp only [listInsert, if_pos hk, List.map_cons, List.pairwise_cons]
      refine ⟨?_, ?_, hs.2⟩
      · intro x hx
        rcases List.mem_cons.mp hx with hx | hx
        · rw [hx]; exact hk
        · exact lt_trans hk (hs.1 x hx)
      · exact hs.1
    · have hak : a < k := lt_of_le_of_ne (le_of_not_lt hk) fun h => hfresh.1 h.symm
      simp only [listInsert, if_neg hk, List.map_cons, List.pairwise_cons]
      refine ⟨?_, ih hs.2 hfresh.2⟩
      intro x hx
      rcases mem_map_fst_listInsert hx with hx | hx
      · rw [hx]; exact hak
      · exact hs.1 x hx

theorem listUpdate_id {k : Int} (v : Int) {l : List (Int × Int)}
    (h : ∀ q ∈ l, q.1 ≠ k) : listUpdate k v l = l := by
  induction l with
  | nil => rfl
  | cons q l ih =>
    obtain ⟨a, b⟩ := q
    have ha : a ≠ k := h (a, b) (List.mem_cons_self _ _)
    simp only [listUpdate, if_neg ha, List.cons.injEq, true_and]
    exact ih fun q hq => h q (List.mem_cons_of_mem _ hq)

theorem listUpdate_append_skip {k : Int} (v : Int) {A : List (Int × Int)}
    (h : ∀ q ∈ A, q.1 ≠ k) (B : List (Int × Int)) :
    listUpdate k v (A ++ B) = A ++ listUpdate k v B := by
  induction A with
  | nil => rfl
  | cons q A ih =>
    obtain ⟨a, b⟩ := q
    have ha : a ≠ k := h (a, b) (List.mem_cons_self _ _)
    simp only [List.cons_append, listUpdate, if_neg ha, List.cons.injEq, true_and]
    exact ih fun q hq => h q (List.mem_cons_of_mem _ hq)

theorem listUpdate_append_keep {k : Int} (v : Int) (A : List (Int × Int))
    {B : List (Int × Int)} (h : ∀ q ∈ B, q.1 ≠ k) :
    listUpdate k v (A ++ B) = listUpdate k v A ++ B := by
  induction A with
  | nil => simp [listUpdate_id v h, listUpdate]
  | cons q A ih =>
    obtain ⟨a, b⟩ := q
    by_cases ha : a = k <;> simp [listUpdate, ha, ih]

theorem map_fst_listUpdate (k v : Int) (l : List (Int × Int)) :
    (listUpdate k v l).map Prod.fst = l.map Prod.fst := by
  induction l with
  | nil => rfl
  | cons q l ih =>
    obtain ⟨a, b⟩ := q
    by_cases ha : a = k <;> simp [listUpdate, ha, ih]

theorem lookupA_listUpdate_self {k : Int} (v : Int) {l : List (Int × Int)}
    (h : k ∈ l.map Prod.fst) : lookupA k (listUpdate k v l) = some v := by
  induction l with
  | nil => simp at h
  | cons q l ih =>
    obtain ⟨a, b⟩ := q
    by_cases ha : a = k
    · simp [listUpdate, ha, lookupA]
    · simp only [List.map_cons, List.mem_cons] at h
      rcases h with h | h
      · exact absurd h.symm ha
      · simp only [listUpdate, if_neg ha, lookupA]
        exact ih h

theorem lookupA_listUpdate_other {k x : Int} (v : Int) (l : List (Int × Int))
    (h : x ≠ k) : lookupA x (listUpdate k v l) = lookupA x l := by
  induction l with
  | nil => rfl
  | cons q l ih =>
    obtain ⟨a, b⟩ := q
    by_cases ha : a = k
    · subst ha
      rw [listUpdate, if_pos rfl, lookupA, if_neg fun hc => h hc.symm, lookupA,
        if_neg fun hc => h hc.symm]
    · rw [listUpdate, if_neg ha, lookupA, lookupA]
      by_cases hax : a = x
      · rw [if_pos hax, if_pos hax]
      · rw [if_neg hax, if_neg hax, ih]

/-! ### Refinement of fresh insertion to sorted-position list insertion -/

/-- Recursive restatement of the descend-and-attach phase of
`ordered_map_insert` (lines 457-482): the fresh red node takes the place of
the `NIL` slot that the descent loop reaches. -/
def attach (k v : Int) : Tree → Tree
  | .nil => .node .RB_RED .nil k v .nil
  | .node c l a b r =>
    if k < a then .node c (attach k v l) a b r else .node c l a b (attach k v r)

theorem plug_insert_descend (k v : Int) : ∀ (t : Tree) (p : List Step),
    plug (.node .RB_RED .nil k v .nil) (insert_descend t k p) = plug (attach k v t) p := by
  intro t
  induction t with
  | nil => intro p; simp [insert_descend, attach]
  | node c l a b r ihl ihr =>
    intro p
    by_cases h : k < a
    · simp [insert_descend, attach, h, ihl, plug]
    · simp [insert_descend, attach, h, ihr, plug]

theorem inorder_attach {t : Tree} (k v : Int) (hs : SortedKeys t)
    (hfresh : k ∉ keys t) :
    inorder (attach k v t) = listInsert k v (inorder t) := by
  induction t with
  | nil => rfl
  | node c l a b r ihl ihr =>
    obtain ⟨hsl, hsr, hbl, hbr⟩ := sortedKeys_node hs
    rw [keys_node] at hfresh
    simp only [List.mem_append, List.mem_cons] at hfresh
    push_neg at hfresh
    obtain ⟨hfl, hka, hfr⟩ := hfresh
    by_cases h : k < a
    · rw [attach, if_pos h, inorder, inorder, ihl hsl hfl,
        listInsert_append_left v b _ _ h]
    · have hak : a < k := lt_of_le_of_ne (le_of_not_lt h) fun hc => hka hc.symm
      have hcond : ∀ q ∈ inorder l ++ [(a, b)], ¬k < q.1 := by
        intro q hq
        rcases List.mem_append.mp hq with hq | hq
        · exact not_lt_of_gt (lt_trans (hbl q hq) hak)
        · rcases List.mem_singleton.mp hq with rfl
          exact not_lt_of_gt hak
      rw [attach, if_neg h, inorder, inorder, ihr hsr hfr,
        show inorder l ++ (a, b) :: inorder r = (inorder l ++ [(a, b)]) ++ inorder r by simp,
        listInsert_append_right v hcond (inorder r)]
      simp

/-! ### `update_value` refines list update -/

theorem keys_update_value (t : Tree) (k v : Int) :
    keys (update_value t k v) = keys t := by
  induction t with
  | nil => rfl
  | node c l a b r ihl ihr =>
    by_cases h1 : k = a
    · rw [update_value, if_pos h1, keys_node, keys_node]
    · by_cases h2 : k < a
      · rw [update_value, if_neg h1, if_pos h2, keys_node, keys_node, ihl]
      · rw [update_value, if_neg h1, if_neg h2, keys_node, keys_node, ihr]

theorem inorder_update_value {t : Tree} (hs : SortedKeys t) (k v : Int) :
    inorder (update_value t k v) = listUpdate k v (inorder t) := by
  induction t with
  | nil => rfl
  | node c l a b r ihl ihr =>
    obtain ⟨hsl, hsr, hbl, hbr⟩ := sortedKeys_node hs
    by_cases h1 : k = a
    · subst h1
      rw [update_value, if_pos rfl, inorder, inorder,
        listUpdate_append_skip v (fun q hq => ne_of_lt (hbl q hq)), listUpdate, if_pos rfl]
    · by_cases h2 : k < a
      · rw [update_value, if_neg h1, if_pos h2, inorder, inorder, ihl hsl,
          listUpdate_append_keep v _ ?_]
        intro q hq
        rcases List.mem_cons.mp hq with hq | hq
        · rw [hq]; exact fun hc => h1 hc.symm
        · exact fun hc => absurd (hbr q hq) (by rw [hc]; exact not_lt_of_gt h2)
      · have hak : a < k := lt_of_le_of_ne (le_of_not_lt h2) fun hc => h1 hc.symm
        have hcond : ∀ q ∈ inorder l ++ [(a, b)], q.1 ≠ k := by
          intro q hq
          rcases List.mem_append.mp hq with hq | hq
          · exact ne_of_lt (lt_trans (hbl q hq) hak)
          · rcases List.mem_singleton.mp hq with rfl
            exact ne_of_lt hak
        rw [update_value, if_neg h1, if_neg h2, inorder, inorder, ihr hsr,
          show inorder l ++ (a, b) :: inorder r = (inorder l ++ [(a, b)]) ++ inorder r by simp,
          listUpdate_append_skip v hcond (inorder r)]
        simp

/-! ### Bridging the public query functions to `tree_search` -/

theorem ordered_map_get_eq (m : OrderedMap) (k : Int) :
    ordered_map_get (some m) k = node_value (tree_search m.root k) := by
  unfold ordered_map_get node_value
  cases h : tree_search m.root k <;> simp [h]

theorem ordered_map_contains_iff {m : OrderedMap} {k : Int} :
    ordered_map_contains (some m) k = true ↔ tree_search m.root k ≠ .nil := by
  unfold ordered_map_contains
  cases h : tree_search m.root k <;> simp [h]

theorem ordered_map_contains_false_iff {m : OrderedMap} {k : Int} :
    ordered_map_contains (some m) k = false ↔ tree_search m.root k = .nil := by
  unfold ordered_map_contains
  cases h : tree_search m.root k <;> simp [h]

theorem lookupA_listInsert_self {k : Int} (v : Int) {l : List (Int × Int)}
    (h : k ∉ l.map Prod.fst) : lookupA k (listInsert k v l) = some v := by
  induction l with
  | nil => simp [listInsert, lookupA]
  | cons q l ih =>
    obtain ⟨a, b⟩ := q
    simp only [List.map_cons, List.mem_cons] at h
    push_neg at h
    by_cases hk : k < a
    · simp [listInsert, hk, lookupA]
    · rw [listInsert, if_neg hk, lookupA, if_neg fun hc => h.1 hc.symm]
      exact ih h.2

/-! ### Characterization of `insert_body` -/

theorem insert_body_found {m : OrderedMap} {k : Int} (v : Int)
    (h : tree_search m.root k ≠ .nil) :
    insert_body m k v
      = ({ root := update_value m.root k v, size := m.size }, .ORDERED_MAP_SUCCESS) := by
  unfold insert_body
  cases hs : tree_search m.root k with
  | nil => exact absurd hs h
  | node c l a b r => rfl

theorem insert_body_fresh {m : OrderedMap} {k : Int} (v : Int)
    (h : tree_search m.root k = .nil) :
    insert_body m k v
      = ({ root := insert_fixup ((insert_descend m.root k []).length + 1)
             (.node .RB_RED .nil k v .nil) (insert_descend m.root k []),
           size := m.size + 1 }, .ORDERED_MAP_SUCCESS) := by
  unfold insert_body
  rw [h]

theorem not_mem_keys_of_search_nil {t : Tree} {k : Int} (hsort : SortedKeys t)
    (h : tree_search t k = .nil) : k ∉ keys t :=
  fun hk => (tree_search_ne_nil_iff hsort k).mpr hk h

theorem inorder_insert_fresh {m : OrderedMap} {k : Int} (v : Int)
    (hsort : SortedKeys m.root) (h : tree_search m.root k = .nil) :
    inorder (insert_body m k v).1.root = listInsert k v (inorder m.root) := by
  rw [insert_body_fresh v h]
  show inorder (insert_fixup _ _ _) = _
  rw [inorder_insert_fixup, plug_insert_descend]
  exact inorder_attach k v hsort (not_mem_keys_of_search_nil hsort h)

/-- After any successful insert on a sorted map: the tree is still sorted,
the key is bound to the inserted value, and the call reported success. -/
theorem insert_body_post {m : OrderedMap} (k v : Int) (hsort : SortedKeys m.root) :
    SortedKeys (insert_body m k v).1.root ∧ k ∈ keys (insert_body m k v).1.root ∧
      (insert_body m k v).2 = .ORDERED_MAP_SUCCESS ∧
      lookupA k (inorder (insert_body m k v).1.root) = some v := by
  by_cases hnil : tree_search m.root k = .nil
  · have hfresh := not_mem_keys_of_search_nil hsort hnil
    have hio := inorder_insert_fresh v hsort hnil
    have hkeys : keys (insert_body m k v).1.root = (listInsert k v (inorder m.root)).map Prod.fst := by
      rw [keys, hio]
    refine ⟨?_, ?_, ?_, ?_⟩
    · rw [SortedKeys, hkeys]
      exact pairwise_listInsert v hsort hfresh
    · rw [hkeys]
      exact self_mem_listInsert k v (inorder m.root)
    · rw [insert_body_fresh v hnil]
    · rw [hio]
      exact lookupA_listInsert_self v hfresh
  · have hmem : k ∈ keys m.root := (tree_search_ne_nil_iff hsort k).mp hnil
    have hfound := insert_body_found v hnil
    refine ⟨?_, ?_, ?_, ?_⟩
    · rw [hfound]
      show SortedKeys (update_value m.root k v)
      rw [SortedKeys, keys_update_value]
      exact hsort
    · rw [hfound]
      show k ∈ keys (update_value m.root k v)
      rw [keys_update_value]
      exact hmem
    · rw [hfound]
    · rw [hfound]
      show lookupA k (inorder (update_value m.root k v)) = some v
      rw [inorder_update_value hsort k v]
      exact lookupA_listUpdate_self v hmem

/-! ### Claim C4 -/

/-- C4: on any sorted map, `insert(k,v); insert(k,w)` leaves `get(k) = w`,
the second insert leaves the size unchanged, and the second insert only
rewrites the value cell at the node with key k (the resulting tree is
exactly `update_value` of the intermediate tree: every key — in particular
the stored key of the binding for k — and every structural field is exactly
as after the first insert). -/
theorem insert_insert_updates_value_only (m : OrderedMap) (k v w : Int)
    (hsort : SortedKeys m.root) :
    ordered_map_get (some (insert_body (insert_body m k v).1 k w).1) k = some w ∧
    (insert_body (insert_body m k v).1 k w).1.size = (insert_body m k v).1.size ∧
    (insert_body (insert_body m k v).1 k w).1.root
      = update_value (insert_body m k v).1.root k w ∧
    keys (insert_body (insert_body m k v).1 k w).1.root
      = keys (insert_body m k v).1.root ∧
    (insert_body (insert_body m k v).1 k w).2 = .ORDERED_MAP_SUCCESS := by
  obtain ⟨hs1, hmem1, -, -⟩ := insert_body_post k v hsort
  have hne : tree_search (insert_body m k v).1.root k ≠ .nil :=
    (tree_search_ne_nil_iff hs1 k).mpr hmem1
  have h2 := insert_body_found w hne
  have hs2 : SortedKeys (update_value (insert_body m k v).1.root k w) := by
    rw [SortedKeys, keys_update_value]
    exact hs1
  refine ⟨?_, ?_, ?_, ?_, ?_⟩
  · rw [h2, ordered_map_get_eq]
    show node_value (tree_search (update_value (insert_body m k v).1.root k w) k) = some w
    rw [node_value_tree_search hs2 k, inorder_update_value hs1 k w]
    exact lookupA_listUpdate_self w hmem1
  · rw [h2]
  · rw [h2]
  · rw [h2]
    show keys (update_value (insert_body m k v).1.root k w) = _
    rw [keys_update_value]
  · rw [h2]

/-- C4 witness: instantiated on the empty map with k = 1, v = 10, w = 20. -/
theorem insert_insert_updates_value_only_witness :
    SortedKeys ordered_map_create.root ∧
    ordered_map_get
      (some (insert_body (insert_body ordered_map_create 1 10).1 1 20).1) 1 = some 20 :=
  ⟨by decide,
   (insert_insert_updates_value_only ordered_map_create 1 10 20 (by decide)).1⟩

/-! ### Claim C5 -/

/-- C5: on any sorted map, `replace(k, v)` returns success and updates the
value in place when k is present, and returns `key-not-found` returning the
very same map (no modification at all) when k is absent. -/
theorem replace_updates_or_reports_missing (m : OrderedMap) (k v : Int)
    (hsort : SortedKeys m.root) :
    (ordered_map_contains (some m) k = true →
      ordered_map_replace (some m) k v
        = (some { root := update_value m.root k v, size := m.size }, .ORDERED_MAP_SUCCESS) ∧
      ordered_map_get (ordered_map_replace (some m) k v).1 k = some v) ∧
    (ordered_map_contains (some m) k = false →
      ordered_map_replace (some m) k v = (some m, .ORDERED_MAP_ERROR_KEY_NOT_FOUND)) := by
  constructor
  · intro hc
    have hne : tree_search m.root k ≠ .nil := ordered_map_contains_iff.mp hc
    have hcf : ¬ordered_map_contains (some m) k = false := by
      rw [hc]; simp
    have hrepl : ordered_map_replace (some m) k v
        = (some { root := update_value m.root k v, size := m.size }, .ORDERED_MAP_SUCCESS) := by
      rw [ordered_map_replace, if_neg hcf]
      show Prod.map some id (insert_body m k v) = _
      rw [insert_body_found v hne]
      rfl
    refine ⟨hrepl, ?_⟩
    rw [hrepl]
    have hs2 : SortedKeys (update_value m.root k v) := by
      rw [SortedKeys, keys_update_value]
      exact hsort
    rw [ordered_map_get_eq]
    show node_value (tree_search (update_value m.root k v) k) = some v
    rw [node_value_tree_search hs2 k, inorder_update_value hsort k v]
    exact lookupA_listUpdate_self v ((tree_search_ne_nil_iff hsort k).mp hne)
  · intro hc
    rw [ordered_map_replace, if_pos hc]

/-- C5 witness: on the empty map, `replace(1, 10)` reports `key-not-found`
and returns the map unchanged. -/
theorem replace_updates_or_reports_missing_witness :
    SortedKeys ordered_map_create.root ∧
    ordered_map_replace (some ordered_map_create) 1 10
      = (some ordered_map_create, .ORDERED_MAP_ERROR_KEY_NOT_FOUND) :=
  ⟨by decide,
   (replace_updates_or_reports_missing ordered_map_create 1 10 (by decide)).2 (by decide)⟩

/-! ### Claim C8 -/

/-- C8: `get_or_default` returns the stored value whenever `get` finds one,
and returns the caller-supplied default itself when the key is absent, in
which case `get` also reports absence; being a pure query it performs no
insertion (it returns no updated map at all, and the map argument is
untouched). -/
theorem get_or_default_borrows_or_returns_default (m : OrderedMap) (k d : Int) :
    (∀ v, ordered_map_get (some m) k = some v →
      ordered_map_get_or_default (some m) k d = v) ∧
    (ordered_map_contains (some m) k = false →
      ordered_map_get_or_default (some m) k d = d ∧ ordered_map_get (some m) k = none) := by
  constructor
  · intro v hv
    rw [ordered_map_get_or_default, hv]
  · intro hc
    have hget : ordered_map_get (some m) k = none := by
      rw [ordered_map_get_eq, ordered_map_contains_false_iff.mp hc]
      rfl
    rw [ordered_map_get_or_default, hget]
    exact ⟨rfl, rfl⟩

/-! ### Refinement of removal to list erasure -/

theorem search_zipper_plug : ∀ (t : Tree) (k : Int) (p : List Step)
    (zq : Tree × List Step), search_zipper t k p = some zq →
    plug zq.1 zq.2 = plug t p := by
  intro t
  induction t with
  | nil => intro k p zq h; exact absurd h (by simp [search_zipper])
  | node c l a b r ihl ihr =>
    intro k p zq h
    rw [search_zipper] at h
    by_cases h1 : k = a
    · rw [if_pos h1] at h
      obtain rfl := Option.some.inj h
      rfl
    · rw [if_neg h1] at h
      by_cases h2 : k < a
      · rw [if_pos h2] at h
        rw [ihl _ _ _ h]
        rfl
      · rw [if_neg h2] at h
        rw [ihr _ _ _ h]
        rfl

theorem search_zipper_key : ∀ (t : Tree) (k : Int) (p : List Step)
    (zq : Tree × List Step), search_zipper t k p = some zq →
    ∃ c l v r, zq.1 = Tree.node c l k v r := by
  intro t
  induction t with
  | nil => intro k p zq h; exact absurd h (by simp [search_zipper])
  | node c l a b r ihl ihr =>
    intro k p zq h
    rw [search_zipper] at h
    by_cases h1 : k = a
    · rw [if_pos h1] at h
      obtain rfl := Option.some.inj h
      exact ⟨c, l, b, r, by rw [h1]⟩
    · rw [if_neg h1] at h
      by_cases h2 : k < a
      · rw [if_pos h2] at h
        exact ihl _ _ _ h
      · rw [if_neg h2] at h
        exact ihr _ _ _ h

theorem search_zipper_none_iff : ∀ (t : Tree) (k : Int) (p : List Step),
    (search_zipper t k p = none ↔ tree_search t k = .nil) := by
  intro t
  induction t with
  | nil => intro k p; simp [search_zipper, tree_search]
  | node c l a b r ihl ihr =>
    intro k p
    by_cases h1 : k = a
    · simp [search_zipper, tree_search, h1]
    · by_cases h2 : k < a <;> simp [search_zipper, tree_search, h1, h2, ihl, ihr]

theorem tree_minimum_z_plug : ∀ (t : Tree) (p : List Step),
    plug (tree_minimum_z t p).1 (tree_minimum_z t p).2 = plug t p := by
  intro t
  induction t with
  | nil => intro p; rfl
  | node c l a b r ihl ihr =>
    intro p
    cases l with
    | nil => rfl
    | node lc ll lk lv lr =>
      rw [tree_minimum_z, ihl]
      rfl

theorem tree_minimum_z_shape : ∀ (t : Tree) (p : List Step), t ≠ .nil →
    ∃ c k v r q, tree_minimum_z t p = (.node c .nil k v r, q) := by
  intro t
  induction t with
  | nil => intro p h; exact absurd rfl h
  | node c l a b r ihl ihr =>
    intro p _
    cases l with
    | nil => exact ⟨c, a, b, r, p, rfl⟩
    | node lc ll lk lv lr =>
      rw [tree_minimum_z]
      exact ihl _ (by simp)

theorem ctx_before_tree_minimum_z : ∀ (t : Tree) (p : List Step),
    ctx_before (tree_minimum_z t p).2 = ctx_before p := by
  intro t
  induction t with
  | nil => intro p; rfl
  | node c l a b r ihl ihr =>
    intro p
    cases l with
    | nil => rfl
    | node lc ll lk lv lr =>
      rw [tree_minimum_z, ihl]
      rfl

theorem eraseKey_append {k : Int} {A : List (Int × Int)} (h : ∀ q ∈ A, q.1 ≠ k)
    (w : Int) (B : List (Int × Int)) :
    eraseKey k (A ++ (k, w) :: B) = A ++ B := by
  induction A with
  | nil => simp [eraseKey]
  | cons q A ih =>
    obtain ⟨a, b⟩ := q
    have ha : a ≠ k := h (a, b) (List.mem_cons_self _ _)
    simp only [List.cons_append, eraseKey, if_neg ha, List.cons.injEq, true_and]
    exact ih fun q hq => h q (List.mem_cons_of_mem _ hq)

theorem eraseKey_sublist (k : Int) (l : List (Int × Int)) :
    List.Sublist (eraseKey k l) l := by
  induction l with
  | nil => simp [eraseKey]
  | cons q l ih =>
    obtain ⟨a, b⟩ := q
    by_cases h : a = k
    · rw [eraseKey, if_pos h]
      exact List.sublist_cons_self _ _
    · rw [eraseKey, if_neg h]
      exact List.Sublist.cons₂ _ ih

theorem eraseKey_listInsert {k : Int} (v : Int) {l : List (Int × Int)}
    (h : ∀ q ∈ l, q.1 ≠ k) : eraseKey k (listInsert k v l) = l := by
  induction l with
  | nil => simp [listInsert, eraseKey]
  | cons q l ih =>
    obtain ⟨a, b⟩ := q
    have ha : a ≠ k := h (a, b) (List.mem_cons_self _ _)
    by_cases hk : k < a
    · simp [listInsert, hk, eraseKey]
    · simp only [listInsert, if_neg hk, eraseKey, if_neg ha, List.cons.injEq, true_and]
      exact ih fun q hq => h q (List.mem_cons_of_mem _ hq)

/-- Removal of a present key k from a sorted map succeeds, its in-order
binding sequence is exactly the old sequence with the unique k-binding
erased, and the size counter decrements. -/
theorem remove_body_found {m : OrderedMap} {k : Int} (hsort : SortedKeys m.root)
    (h : tree_search m.root k ≠ .nil) :
    (remove_body m k).2 = .ORDERED_MAP_SUCCESS ∧
    inorder (remove_body m k).1.root = eraseKey k (inorder m.root) ∧
    (remove_body m k).1.size = m.size - 1 := by
  obtain ⟨zq, hs⟩ : ∃ zq, search_zipper m.root k [] = some zq := by
    cases hsz : search_zipper m.root k [] with
    | none => exact absurd ((search_zipper_none_iff m.root k []).mp hsz) h
    | some zq => exact ⟨zq, rfl⟩
  obtain ⟨zc0, zl0, zv0, zr0, hzq⟩ := search_zipper_key m.root k [] zq hs
  obtain ⟨z, zp⟩ := zq
  simp only at hzq
  subst hzq
  have hplug : plug (Tree.node zc0 zl0 k zv0 zr0) zp = m.root :=
    search_zipper_plug m.root k [] _ hs
  have hio : inorder m.root
      = (ctx_before zp ++ inorder zl0) ++ (k, zv0) :: (inorder zr0 ++ ctx_after zp) := by
    rw [← hplug, inorder_plug, inorder]
    simp [List.append_assoc]
  have hpw : ((((ctx_before zp ++ inorder zl0) ++ (k, zv0)
      :: (inorder zr0 ++ ctx_after zp)).map Prod.fst)).Pairwise (· < ·) := by
    have := hsort
    rw [SortedKeys, keys, hio] at this
    exact this
  have hbounds := pairwise_middle hpw
  have hA : ∀ q ∈ ctx_before zp ++ inorder zl0, q.1 ≠ k :=
    fun q hq => ne_of_lt (hbounds.1 q hq)
  have herase : eraseKey k (inorder m.root)
      = (ctx_before zp ++ inorder zl0) ++ (inorder zr0 ++ ctx_after zp) := by
    rw [hio, eraseKey_append hA]
  cases zl0 with
  | nil =>
    simp only [remove_body, hs]
    by_cases hyc : zc0 = .RB_BLACK <;>
      simp [hyc, inorder_delete_fixup, inorder_plug, herase, inorder, List.append_assoc]
  | node lc ll lk lv lr =>
    cases zr0 with
    | nil =>
      simp only [remove_body, hs]
      by_cases hyc : zc0 = .RB_BLACK <;>
        simp [hyc, inorder_delete_fixup, inorder_plug, herase, inorder, List.append_assoc]
    | node rc rl rk rv rr =>
      obtain ⟨yc, yk, yv, yr, spine, hmin⟩ :=
        tree_minimum_z_shape (.node rc rl rk rv rr) [] (by simp)
      have hminplug : plug (Tree.node yc .nil yk yv yr) spine
          = Tree.node rc rl rk rv rr := by
        have := tree_minimum_z_plug (.node rc rl rk rv rr) []
        rw [hmin] at this
        exact this
      have hminbefore : ctx_before spine = [] := by
        have := ctx_before_tree_minimum_z (.node rc rl rk rv rr) []
        rw [hmin] at this
        exact this
      have hio_r : inorder (Tree.node rc rl rk rv rr)
          = (yk, yv) :: (inorder yr ++ ctx_after spine) := by
        rw [← hminplug, inorder_plug, hminbefore]
        simp [inorder, List.append_assoc]
      have hio_plug_spine : inorder (plug yr spine)
          = inorder yr ++ ctx_after spine := by
        rw [inorder_plug, hminbefore]
        simp
      rw [hio_r] at herase
      simp only [remove_body, hs, hmin]
      by_cases hyc : yc = .RB_BLACK <;>
        simp [hyc, inorder_delete_fixup, inorder_plug, plug_append, plug, herase,
          hio_plug_spine, inorder, List.append_assoc]

/-! ### The iterator -/

/-- `ordered_map_iter_direction_t` (ordered_map.h lines 44-47). -/
inductive ordered_map_iter_direction_t where
  | ORDERED_MAP_ITER_FORWARD
  | ORDERED_MAP_ITER_BACKWARD
deriving DecidableEq

/-- `struct ordered_map_iterator` (lines 34-39): the `current` node pointer
is rendered as a focused subtree together with its parent chain (`none` for
`NIL`); the map back-reference is implicit in the tree the iterator was
created from. -/
structure ordered_map_iterator where
  direction : ordered_map_iter_direction_t
  current : Option (Tree × List Step)
  valid : Bool
deriving DecidableEq

/-- `ordered_map_iterator_create` (lines 677-695) for a non-null map:
positioned at the minimum (forward) or maximum (backward) node, past-end on
an empty tree. -/
def ordered_map_iterator_create (m : OrderedMap) (d : ordered_map_iter_direction_t) :
    ordered_map_iterator :=
  { direction := d, valid := true,
    current :=
      match m.root with
      | .nil => none
      | .node c l k v r =>
        match d with
        | .ORDERED_MAP_ITER_FORWARD => some (tree_minimum_z (.node c l k v r) [])
        | .ORDERED_MAP_ITER_BACKWARD => some (tree_maximum_z (.node c l k v r) []) }

/-- `ordered_map_iterator_has_next` (lines 701-703). -/
def ordered_map_iterator_has_next (it : ordered_map_iterator) : Bool :=
  it.valid && it.current.isSome

/-- `ordered_map_iterator_next` (lines 705-717). -/
def ordered_map_iterator_next (it : ordered_map_iterator) :
    ordered_map_iterator × ordered_map_error_t :=
  if it.valid = false then (it, .ORDERED_MAP_ERROR_ITERATOR_INVALID)
  else
    match it.current with
    | none => (it, .ORDERED_MAP_ERROR_ITERATOR_END)
    | some (t, p) =>
      match it.direction with
      | .ORDERED_MAP_ITER_FORWARD =>
        ({ it with current := tree_successor t p }, .ORDERED_MAP_SUCCESS)
      | .ORDERED_MAP_ITER_BACKWARD =>
        ({ it with current := tree_predecessor t p }, .ORDERED_MAP_SUCCESS)

/-- `ordered_map_iterator_key` (lines 719-722). -/
def ordered_map_iterator_key (it : ordered_map_iterator) : Option Int :=
  match it.current with
  | some (.node _ _ k _ _, _) => some k
  | _ => none

/-- `ordered_map_iterator_value` (lines 724-727). -/
def ordered_map_iterator_value (it : ordered_map_iterator) : Option Int :=
  match it.current with
  | some (.node _ _ _ v _, _) => some v
  | _ => none

/-- The canonical consumer loop over an iterator (as in `ordered_map_print`,
lines 784-799, and the test driver): while `has_next`, emit the key/value
pair and advance.  `fuel` bounds the loop; a full traversal visits each
binding exactly once, so the binding count suffices. -/
def iterate_all : Nat → ordered_map_iterator → List (Int × Int)
  | 0, _ => []
  | fuel + 1, it =>
    if ordered_map_iterator_has_next it then
      match ordered_map_iterator_key it, ordered_map_iterator_value it with
      | some k, some v => (k, v) :: iterate_all fuel (ordered_map_iterator_next it).1
      | _, _ => []
    else []

/-- The full forward cursor pass over a map. -/
def forward_traversal (m : OrderedMap) : List (Int × Int) :=
  iterate_all (inorder m.root).length
    (ordered_map_iterator_create m .ORDERED_MAP_ITER_FORWARD)

/-- The full backward cursor pass over a map. -/
def backward_traversal (m : OrderedMap) : List (Int × Int) :=
  iterate_all (inorder m.root).length
    (ordered_map_iterator_create m .ORDERED_MAP_ITER_BACKWARD)

/-! ### The forward cursor enumerates the in-order sequence -/

/-- Remaining forward output from a focused position. -/
def rem_fwd : Tree × List Step → List (Int × Int)
  | (.nil, p) => ctx_after p
  | (.node _ _ k v r, p) => (k, v) :: (inorder r ++ ctx_after p)

/-- Remaining forward output from an optional position. -/
def rem_fwd_opt : Option (Tree × List Step) → List (Int × Int)
  | none => []
  | some z => rem_fwd z

theorem rem_fwd_tree_minimum_z : ∀ (t : Tree) (p : List Step),
    rem_fwd (tree_minimum_z t p) = inorder t ++ ctx_after p := by
  intro t
  induction t with
  | nil => intro p; simp [tree_minimum_z, rem_fwd, inorder]
  | node c l a b r ihl ihr =>
    intro p
    cases l with
    | nil => simp [tree_minimum_z, rem_fwd, inorder]
    | node lc ll lk lv lr =>
      rw [tree_minimum_z, ihl]
      simp [ctx_after, inorder, List.append_assoc]

theorem rem_fwd_succ_climb : ∀ (p : List Step) (t : Tree),
    rem_fwd_opt (succ_climb t p) = ctx_after p := by
  intro p
  induction p with
  | nil => intro t; simp [succ_climb, rem_fwd_opt, ctx_after]
  | cons s p ih =>
    intro t
    cases s with
    | leftOf c k v r => simp [succ_climb, rem_fwd_opt, rem_fwd, ctx_after]
    | rightOf c k v l => rw [succ_climb, ih]; simp [ctx_after]

theorem rem_fwd_tree_successor (c : rb_color_t) (l : Tree) (k v : Int) (r : Tree)
    (p : List Step) :
    rem_fwd_opt (tree_successor (.node c l k v r) p) = inorder r ++ ctx_after p := by
  cases r with
  | nil =>
    rw [tree_successor, rem_fwd_succ_climb]
    simp [inorder]
  | node rc rl rk rv rr =>
    rw [tree_successor]
    show rem_fwd (tree_minimum_z _ _) = _
    rw [rem_fwd_tree_minimum_z]
    simp [ctx_after]

theorem succ_climb_focus : ∀ (p : List Step) (t : Tree) (zq : Tree × List Step),
    succ_climb t p = some zq → ∃ c l k v r, zq.1 = Tree.node c l k v r := by
  intro p
  induction p with
  | nil => intro t zq h; exact absurd h (by simp [succ_climb])
  | cons s p ih =>
    intro t zq h
    cases s with
    | leftOf c k v r =>
      rw [succ_climb] at h
      obtain rfl := Option.some.inj h
      exact ⟨c, t, k, v, r, rfl⟩
    | rightOf c k v l =>
      rw [succ_climb] at h
      exact ih _ _ h

theorem tree_successor_focus (c : rb_color_t) (l : Tree) (k v : Int) (r : Tree)
    (p : List Step) (zq : Tree × List Step)
    (h : tree_successor (.node c l k v r) p = some zq) :
    ∃ c2 l2 k2 v2 r2, zq.1 = Tree.node c2 l2 k2 v2 r2 := by
  cases r with
  | nil =>
    rw [tree_successor] at h
    exact succ_climb_focus _ _ _ h
  | node rc rl rk rv rr =>
    rw [tree_successor] at h
    obtain rfl := Option.some.inj h
    obtain ⟨c2, k2, v2, r2, q, hm⟩ := tree_minimum_z_shape (.node rc rl rk rv rr) _ (by simp)
    exact ⟨c2, .nil, k2, v2, r2, by rw [hm]⟩

theorem iterate_all_none (d : ordered_map_iter_direction_t) : ∀ fuel : Nat,
    iterate_all fuel { direction := d, current := none, valid := true } = [] := by
  intro fuel
  cases fuel <;> simp [iterate_all, ordered_map_iterator_has_next]

theorem iterate_all_fwd : ∀ (fuel : Nat) (t : Tree) (p : List Step),
    (∃ c l k v r, t = Tree.node c l k v r) →
    (rem_fwd (t, p)).length ≤ fuel →
    iterate_all fuel
      { direction := .ORDERED_MAP_ITER_FORWARD, current := some (t, p), valid := true }
      = rem_fwd (t, p) := by
  intro fuel
  induction fuel with
  | zero =>
    intro t p hn hlen
    obtain ⟨c, l, k, v, r, rfl⟩ := hn
    simp [rem_fwd] at hlen
  | succ fuel ih =>
    intro t p hn hlen
    obtain ⟨c, l, k, v, r, rfl⟩ := hn
    have hnext : (ordered_map_iterator_next
        { direction := .ORDERED_MAP_ITER_FORWARD,
          current := some (Tree.node c l k v r, p), valid := true }).1
        = { direction := .ORDERED_MAP_ITER_FORWARD,
            current := tree_successor (Tree.node c l k v r) p, valid := true } := by
      rfl
    rw [iterate_all, if_pos (by rfl)]
    show ((k, v) :: iterate_all fuel _) = rem_fwd (Tree.node c l k v r, p)
    rw [hnext]
    have hrem := rem_fwd_tree_successor c l k v r p
    show _ = (k, v) :: (inorder r ++ ctx_after p)
    rw [← hrem]
    cases hsucc : tree_successor (Tree.node c l k v r) p with
    | none =>
      rw [iterate_all_none]
      rfl
    | some zq =>
      obtain ⟨z, q⟩ := zq
      have hfocus := tree_successor_focus c l k v r p (z, q) hsucc
      rw [ih z q hfocus ?_]
      · rfl
      · have : (rem_fwd_opt (tree_successor (Tree.node c l k v r) p)).length
            = (inorder r ++ ctx_after p).length := by rw [hrem]
        rw [hsucc] at this
        simp only [rem_fwd_opt] at this
        rw [this]
        have := hlen
        simp only [rem_fwd, List.length_cons] at this
        omega

theorem forward_traversal_eq_inorder (m : OrderedMap) :
    forward_traversal m = inorder m.root := by
  unfold forward_traversal ordered_map_iterator_create
  cases hr : m.root with
  | nil => simp [iterate_all_none, inorder]
  | node c l k v r =>
    obtain ⟨c2, k2, v2, r2, q, hm⟩ := tree_minimum_z_shape (.node c l k v r) [] (by simp)
    have hrem : rem_fwd (tree_minimum_z (.node c l k v r) []) = inorder (.node c l k v r) := by
      rw [rem_fwd_tree_minimum_z]
      simp [ctx_after]
    rw [hm] at hrem
    show iterate_all (inorder (Tree.node c l k v r)).length
        { direction := .ORDERED_MAP_ITER_FORWARD,
          current := some (tree_minimum_z (Tree.node c l k v r) []), valid := true }
        = inorder (Tree.node c l k v r)
    rw [hm, iterate_all_fwd _ _ _ ⟨c2, .nil, k2, v2, r2, rfl⟩ ?_]
    · exact hrem
    · rw [hrem]

/-! ### The backward cursor enumerates the reversed in-order sequence -/

/-- Remaining backward output from a focused position. -/
def rem_bwd : Tree × List Step → List (Int × Int)
  | (.nil, p) => (ctx_before p).reverse
  | (.node _ l k v _, p) => (k, v) :: ((inorder l).reverse ++ (ctx_before p).reverse)

/-- Remaining backward output from an optional position. -/
def rem_bwd_opt : Option (Tree × List Step) → List (Int × Int)
  | none => []
  | some z => rem_bwd z

theorem rem_bwd_tree_maximum_z : ∀ (t : Tree) (p : List Step),
    rem_bwd (tree_maximum_z t p) = (inorder t).reverse ++ (ctx_before p).reverse := by
  intro t
  induction t with
  | nil => intro p; simp [tree_maximum_z, rem_bwd, inorder]
  | node c l a b r ihl ihr =>
    intro p
    cases r with
    | nil => simp [tree_maximum_z, rem_bwd, inorder]
    | node rc rl rk rv rr =>
      rw [tree_maximum_z, ihr]
      simp [ctx_before, inorder, List.append_assoc]

theorem rem_bwd_pred_climb : ∀ (p : List Step) (t : Tree),
    rem_bwd_opt (pred_climb t p) = (ctx_before p).reverse := by
  intro p
  induction p with
  | nil => intro t; simp [pred_climb, rem_bwd_opt, ctx_before]
  | cons s p ih =>
    intro t
    cases s with
    | leftOf c k v r => rw [pred_climb, ih]; simp [ctx_before]
    | rightOf c k v l => simp [pred_climb, rem_bwd_opt, rem_bwd, ctx_before]

theorem rem_bwd_tree_predecessor (c : rb_color_t) (l : Tree) (k v : Int) (r : Tree)
    (p : List Step) :
    rem_bwd_opt (tree_predecessor (.node c l k v r) p)
      = (inorder l).reverse ++ (ctx_before p).reverse := by
  cases l with
  | nil =>
    rw [tree_predecessor, rem_bwd_pred_climb]
    simp [inorder]
  | node lc ll lk lv lr =>
    rw [tree_predecessor]
    show rem_bwd (tree_maximum_z _ _) = _
    rw [rem_bwd_tree_maximum_z]
    simp [ctx_before]

theorem tree_maximum_z_shape : ∀ (t : Tree) (p : List Step), t ≠ .nil →
    ∃ c k v l q, tree_maximum_z t p = (.node c l k v .nil, q) := by
  intro t
  induction t with
  | nil => intro p h; exact absurd rfl h
  | node c l a b r ihl ihr =>
    intro p _
    cases r with
    | nil => exact ⟨c, a, b, l, p, rfl⟩
    | node rc rl rk rv rr =>
      rw [tree_maximum_z]
      exact ihr _ (by simp)

theorem pred_climb_focus : ∀ (p : List Step) (t : Tree) (zq : Tree × List Step),
    pred_climb t p = some zq → ∃ c l k v r, zq.1 = Tree.node c l k v r := by
  intro p
  induction p with
  | nil => intro t zq h; exact absurd h (by simp [pred_climb])
  | cons s p ih =>
    intro t zq h
    cases s with
    | leftOf c k v r =>
      rw [pred_climb] at h
      exact ih _ _ h
    | rightOf c k v l =>
      rw [pred_climb] at h
      obtain rfl := Option.some.inj h
      exact ⟨c, l, k, v, t, rfl⟩

theorem tree_predecessor_focus (c : rb_color_t) (l : Tree) (k v : Int) (r : Tree)
    (p : List Step) (zq : Tree × List Step)
    (h : tree_predecessor (.node c l k v r) p = some zq) :
    ∃ c2 l2 k2 v2 r2, zq.1 = Tree.node c2 l2 k2 v2 r2 := by
  cases l with
  | nil =>
    rw [tree_predecessor] at h
    exact pred_climb_focus _ _ _ h
  | node lc ll lk lv lr =>
    rw [tree_predecessor] at h
    obtain rfl := Option.some.inj h
    obtain ⟨c2, k2, v2, l2, q, hm⟩ := tree_maximum_z_shape (.node lc ll lk lv lr) _ (by simp)
    exact ⟨c2, l2, k2, v2, .nil, by rw [hm]⟩

theorem iterate_all_bwd : ∀ (fuel : Nat) (t : Tree) (p : List Step),
    (∃ c l k v r, t = Tree.node c l k v r) →
    (rem_bwd (t, p)).length ≤ fuel →
    iterate_all fuel
      { direction := .ORDERED_MAP_ITER_BACKWARD, current := some (t, p), valid := true }
      = rem_bwd (t, p) := by
  intro fuel
  induction fuel with
  | zero =>
    intro t p hn hlen
    obtain ⟨c, l, k, v, r, rfl⟩ := hn
    simp [rem_bwd] at hlen
  | succ fuel ih =>
    intro t p hn hlen
    obtain ⟨c, l, k, v, r, rfl⟩ := hn
    have hnext : (ordered_map_iterator_next
        { direction := .ORDERED_MAP_ITER_BACKWARD,
          current := some (Tree.node c l k v r, p), valid := true }).1
        = { direction := .ORDERED_MAP_ITER_BACKWARD,
            current := tree_predecessor (Tree.node c l k v r) p, valid := true } := by
      rfl
    rw [iterate_all, if_pos (by rfl)]
    show ((k, v) :: iterate_all fuel _) = rem_bwd (Tree.node c l k v r, p)
    rw [hnext]
    have hrem := rem_bwd_tree_predecessor c l k v r p
    show _ = (k, v) :: ((inorder l).reverse ++ (ctx_before p).reverse)
    rw [← hrem]
    cases hpred : tree_predecessor (Tree.node c l k v r) p with
    | none =>
      rw [iterate_all_none]
      rfl
    | some zq =>
      obtain ⟨z, q⟩ := zq
      have hfocus := tree_predecessor_focus c l k v r p (z, q) hpred
      rw [ih z q hfocus ?_]
      · rfl
      · have : (rem_bwd_opt (tree_predecessor (Tree.node c l k v r) p)).length
            = ((inorder l).reverse ++ (ctx_before p).reverse).length := by rw [hrem]
        rw [hpred] at this
        simp only [rem_bwd_opt] at this
        rw [this]
        have := hlen
        simp only [rem_bwd, List.length_cons] at this
        omega

theorem backward_traversal_eq_reverse_inorder (m : OrderedMap) :
    backward_traversal m = (inorder m.root).reverse := by
  unfold backward_traversal ordered_map_iterator_create
  cases hr : m.root with
  | nil => simp [iterate_all_none, inorder]
  | node c l k v r =>
    obtain ⟨c2, k2, v2, l2, q, hm⟩ := tree_maximum_z_shape (.node c l k v r) [] (by simp)
    have hrem : rem_bwd (tree_maximum_z (.node c l k v r) [])
        = (inorder (.node c l k v r)).reverse := by
      rw [rem_bwd_tree_maximum_z]
      simp [ctx_before]
    rw [hm] at hrem
    show iterate_all (inorder (Tree.node c l k v r)).length
        { direction := .ORDERED_MAP_ITER_BACKWARD,
          current := some (tree_maximum_z (Tree.node c l k v r) []), valid := true }
        = (inorder (Tree.node c l k v r)).reverse
    rw [hm, iterate_all_bwd _ _ _ ⟨c2, l2, k2, v2, .nil, rfl⟩ ?_]
    · exact hrem
    · rw [hrem]
      simp

/-! ### Claim C6 -/

/-- C6: the backward cursor pass produces exactly the reverse of the forward
cursor pass, and on a sorted map the forward pass lists keys in strictly
ascending comparator order. -/
theorem traversal_duality (m : OrderedMap) (hsort : SortedKeys m.root) :
    backward_traversal m = (forward_traversal m).reverse ∧
    ((forward_traversal m).map Prod.fst).Pairwise (· < ·) := by
  rw [forward_traversal_eq_inorder, backward_traversal_eq_reverse_inorder]
  refine ⟨rfl, ?_⟩
  have := hsort
  rw [SortedKeys, keys] at this
  exact this

/-- C6 witness: instantiated on the four-element map built by the C1
scenario (whose tree is sorted). -/
theorem traversal_duality_witness :
    SortedKeys c1_map4.root ∧
    backward_traversal c1_map4 = (forward_traversal c1_map4).reverse :=
  ⟨by decide, (traversal_duality c1_map4 (by decide)).1⟩

/-! ### Claim C7 -/

theorem contains_eq_of_inorder_eq {m1 m2 : OrderedMap} (hs1 : SortedKeys m1.root)
    (hs2 : SortedKeys m2.root) (h : inorder m1.root = inorder m2.root) (x : Int) :
    ordered_map_contains (some m1) x = ordered_map_contains (some m2) x := by
  by_cases h1 : tree_search m1.root x = .nil
  · have h2 : tree_search m2.root x = .nil := by
      rw [tree_search_eq_nil_iff hs2, ← h, ← tree_search_eq_nil_iff hs1]
      exact h1
    rw [ordered_map_contains_false_iff.mpr h1, ordered_map_contains_false_iff.mpr h2]
  · have h2 : tree_search m2.root x ≠ .nil := by
      rw [Ne, tree_search_eq_nil_iff hs2, ← h, ← tree_search_eq_nil_iff hs1]
      exact h1
    rw [ordered_map_contains_iff.mpr h1, ordered_map_contains_iff.mpr h2]

/-- C7: inserting a fresh key and then removing it returns the map to a
state indistinguishable from the original by every public observation:
the remove succeeds, the size is back to the original, `contains` answers
identically for every key, and the forward cursor pass is identical. -/
theorem insert_remove_roundtrip (m : OrderedMap) (k v : Int)
    (hsort : SortedKeys m.root) (habs : ordered_map_contains (some m) k = false) :
    (remove_body (insert_body m k v).1 k).2 = .ORDERED_MAP_SUCCESS ∧
    (remove_body (insert_body m k v).1 k).1.size = m.size ∧
    (∀ x : Int, ordered_map_contains (some (remove_body (insert_body m k v).1 k).1) x
      = ordered_map_contains (some m) x) ∧
    forward_traversal (remove_body (insert_body m k v).1 k).1 = forward_traversal m := by
  have hnil : tree_search m.root k = .nil := ordered_map_contains_false_iff.mp habs
  have hfresh : k ∉ keys m.root := not_mem_keys_of_search_nil hsort hnil
  obtain ⟨hs1, hmem1, -, -⟩ := insert_body_post k v hsort
  have hio1 : inorder (insert_body m k v).1.root = listInsert k v (inorder m.root) :=
    inorder_insert_fresh v hsort hnil
  have hsize1 : (insert_body m k v).1.size = m.size + 1 := by
    rw [insert_body_fresh v hnil]
  have hne1 : tree_search (insert_body m k v).1.root k ≠ .nil :=
    (tree_search_ne_nil_iff hs1 k).mpr hmem1
  obtain ⟨herr, hio2, hsize2⟩ := remove_body_found hs1 hne1
  have hkeyfree : ∀ q ∈ inorder m.root, q.1 ≠ k := by
    intro q hq hc
    exact hfresh (by rw [keys, ← hc]; exact List.mem_map_of_mem Prod.fst hq)
  have hio : inorder (remove_body (insert_body m k v).1 k).1.root = inorder m.root := by
    rw [hio2, hio1, eraseKey_listInsert v hkeyfree]
  have hs2 : SortedKeys (remove_body (insert_body m k v).1 k).1.root := by
    rw [SortedKeys, keys, hio]
    exact hsort
  refine ⟨herr, ?_, ?_, ?_⟩
  · rw [hsize2, hsize1]
    omega
  · intro x
    exact contains_eq_of_inorder_eq hs2 hsort hio x
  · rw [forward_traversal_eq_inorder, forward_traversal_eq_inorder, hio]

/-- C7 witness: instantiated on the empty map with k = 1, v = 10. -/
theorem insert_remove_roundtrip_witness :
    SortedKeys ordered_map_create.root ∧
    ordered_map_contains (some ordered_map_create) 1 = false ∧
    forward_traversal (remove_body (insert_body ordered_map_create 1 10).1 1).1
      = forward_traversal ordered_map_create :=
  ⟨by decide, by decide,
   (insert_remove_roundtrip ordered_map_create 1 10 (by decide) (by decide)).2.2.2⟩

/-! ### Claim C1 -/

/-- C1: the claim that the five red-black invariants hold after every
successful insert and remove is FALSE of the code.  Counterexample run:
from a fresh map, insert keys 1, 2, 3, 4 (all succeeding and leaving a valid
red-black tree), then remove key 1 (which succeeds).  The removed node is a
black leaf whose replacement child is `NIL`, so `delete_fixup`'s loop guard
`x != NIL` (line 281) exits immediately without rebalancing, and the
resulting tree violates the equal-black-count invariant: the path to the
left leaf of the root passes one black node, paths through the right subtree
pass two. -/
theorem remove_black_leaf_breaks_black_height :
    (insert_body ordered_map_create 1 10).2 = .ORDERED_MAP_SUCCESS ∧
    (remove_body c1_map4 1).2 = .ORDERED_MAP_SUCCESS ∧
    rb_invariants_hold c1_map4.root = true ∧
    rb_invariants_hold c1_map5.root = false ∧
    black_height c1_map5.root = none := by
  refine ⟨by decide, by decide, by decide, by decide, by decide⟩

/-! ### Claims C2 and C3 -/

/-- Initial state for the duplicate-insert scenarios: the found node stores
value object 1, which is the only live value object and has never been
destroyed. -/
def dup_state0 : DupState := { stored := 1, world := { live := [1], destroy_log := [] } }

/-- A `value_copy` callback whose allocation fails. -/
def value_copy_fail : Nat → Option Nat := fun _ => none

/-- A `value_copy` callback that successfully produces object 2. -/
def value_copy_ok : Nat → Option Nat := fun _ => some 2

/-- C2: the strong atomicity claim is FALSE of the code.  When
`value_copy` fails during an insert that overwrites an existing key, the
code has already destroyed the old value (line 429-431) before attempting
the copy (line 435), so the out-of-memory return (line 436) leaves the old
value released (destructor log `[1]`, nothing live) and the binding's value
slot dangling — not the state preceding the call, in which object 1 was
live and undestroyed. -/
theorem insert_value_copy_failure_not_atomic :
    (insert_update_existing value_copy_fail 7 dup_state0).2
        = .ORDERED_MAP_ERROR_OUT_OF_MEMORY ∧
    (insert_update_existing value_copy_fail 7 dup_state0).1.world.destroy_log = [1] ∧
    (insert_update_existing value_copy_fail 7 dup_state0).1.world.live = [] ∧
    (insert_update_existing value_copy_fail 7 dup_state0).1 ≠ dup_state0 := by
  refine ⟨by decide, by decide, by decide, by decide⟩

/-- C3: the claim that a successful overwriting insert under the
copy/destroy value policy releases the old value exactly once is FALSE of
the code: the destructor runs on the old value at lines 429-431 and again at
lines 437-439 after the successful copy, so the log records object 1
destroyed twice (a double free of the same pointer). -/
theorem duplicate_insert_destroys_old_value_twice :
    (insert_update_existing value_copy_ok 7 dup_state0).2 = .ORDERED_MAP_SUCCESS ∧
    (insert_update_existing value_copy_ok 7 dup_state0).1.stored = 2 ∧
    (insert_update_existing value_copy_ok 7 dup_state0).1.world.destroy_log = [1, 1] ∧
    ((insert_update_existing value_copy_ok 7 dup_state0).1.world.destroy_log.count 1 = 2) := by
  refine ⟨by decide, by decide, by decide, by decide⟩

/-! ### Claim C9 -/

/-- A structurally invalid non-null map: its root is red (and a singleton red
root also violates nothing else, so exactly the balance invariant
`root is black` fails). -/
def c9_bad_map : OrderedMap := { root := .node .RB_RED .nil 1 10 .nil, size := 1 }

/-- C9 counterexample: the claim that `ordered_map_validate` returns true iff
the tree satisfies the invariants (and false on some violating state) is
FALSE of the code: on this red-rooted map the invariants fail yet
`ordered_map_validate` returns true (its body, lines 804-810, returns true
for every non-null map). -/
theorem validate_accepts_invalid_tree :
    ordered_map_validate (some c9_bad_map) = true ∧
    rb_invariants_hold c9_bad_map.root = false ∧
    SortedKeys c9_bad_map.root := by
  refine ⟨by decide, by decide, by decide⟩

/-- C9 amended: `ordered_map_validate` returns false for a null handle and
true for every non-null map, regardless of whether the invariants hold (the
source body is a placeholder). -/
theorem validate_eq_isSome (h : Option OrderedMap) :
    ordered_map_validate h = h.isSome := by
  cases h <;> rfl

/-! ### Claim C10 -/

/-- C10: every read-only query is total on a null map handle: `size` is 0,
`empty` is true, `get` is none and `contains` is false, with no error
reported. -/
theorem null_map_queries_total :
    ordered_map_size none = 0 ∧
    ordered_map_empty none = true ∧
    ∀ k : Int, ordered_map_get none k = none ∧ ordered_map_contains none k = false :=
  ⟨rfl, rfl, fun _ => ⟨rfl, rfl⟩⟩

end OrderedMapC
